import Mathlib

/-!
Verification development for the PaperGraph graph-build engine.

The definitions below are shallow embeddings of the TypeScript source:
JavaScript `Map`s and `Set`s become association lists (insertion-ordered,
duplicate-free keys), JS numbers become `Nat`/`Int`/`Rat`/`Real` as
appropriate, fallible operations return `Option`, and the SQLite store
becomes an explicit record of tables.  Each section names the source file
it embeds.
-/

namespace PaperGraph

/-! ## Section 1: OpenAlex inverted-index reconstruction

Embeds `invertedIndexToText` from `src/sources/utils.ts` (lines 14-42).
The runtime value found under one word of the inverted index is either a
JS array of position values or some non-array value; each position value
is either a number or some non-numeric value.  `none` in `positions`
models a non-array value; `JsonPos.other` models a non-numeric entry.
JS numeric positions are modelled as integers (all positions occurring in
OpenAlex data are integers; negativity is the property the code tests).
-/

inductive JsonPos where
  | num (n : Int)
  | other
deriving DecidableEq, Repr

structure InvEntry where
  word : String
  positions : Option (List JsonPos)
deriving DecidableEq, Repr

/-- The `[pos, word]` pairs pushed for one entry of the inverted index:
array entries that are numbers `≥ 0`, in array order; a non-array value
contributes nothing (the `continue` branch). -/
def entryOccurrences (e : InvEntry) : List (Int × String) :=
  match e.positions with
  | none => []
  | some ps => ps.filterMap (fun p =>
      match p with
      | JsonPos.num n => if 0 ≤ n then some (n, e.word) else none
      | JsonPos.other => none)

/-- The comparison used by `words.sort((a, b) => a[0] - b[0])`: ascending
first component.  JS `Array.prototype.sort` is stable, and any stable sort
agrees with insertion sort for a total preorder, so we model it with
`List.insertionSort`. -/
def posLe (a b : Int × String) : Prop := a.1 ≤ b.1

instance : DecidableRel posLe := fun a b => inferInstanceAs (Decidable (a.1 ≤ b.1))

instance : IsTotal (Int × String) posLe := ⟨fun a b => Int.le_total a.1 b.1⟩

instance : IsTrans (Int × String) posLe := ⟨fun _ _ _ h h' => le_trans h h'⟩

/-- Shallow embedding of `invertedIndexToText`.  The outer `Option` models
`null`/`undefined` input (`if (!invertedIndex) return null`); an object is
its entry list in insertion order. -/
def invertedIndexToText (idx : Option (List InvEntry)) : Option String :=
  match idx with
  | none => none
  | some entries =>
    let words := (entries.map entryOccurrences).flatten
    if words = [] then none
    else some (String.intercalate (" ") ((words.insertionSort posLe).map (fun w => w.2)))

/-- Keeping only the well-formed positions of every entry: a non-array
value becomes an entry with no positions, and non-numeric or negative
positions are dropped. -/
def cleanEntry (e : InvEntry) : InvEntry :=
  match e.positions with
  | none => ⟨e.word, some []⟩
  | some ps => ⟨e.word, some (ps.filter (fun p =>
      match p with
      | JsonPos.num n => 0 ≤ n
      | JsonPos.other => false))⟩

theorem filterMap_goodPos (w : String) (ps : List JsonPos) :
    List.filterMap (fun p =>
        match p with
        | JsonPos.num n => if 0 ≤ n then some (n, w) else none
        | JsonPos.other => none)
      (ps.filter (fun p =>
        match p with
        | JsonPos.num n => decide (0 ≤ n)
        | JsonPos.other => false)) =
    List.filterMap (fun p =>
        match p with
        | JsonPos.num n => if 0 ≤ n then some (n, w) else none
        | JsonPos.other => none) ps := by
  induction ps with
  | nil => rfl
  | cons p ps ih =>
    cases p with
    | num n =>
      by_cases hn : 0 ≤ n <;> simp [List.filter, List.filterMap, hn, ih]
    | other => simp [List.filter, List.filterMap, ih]

theorem entryOccurrences_cleanEntry (e : InvEntry) :
    entryOccurrences (cleanEntry e) = entryOccurrences e := by
  cases h : e.positions with
  | none => simp [cleanEntry, entryOccurrences, h]
  | some ps =>
    simp only [cleanEntry, entryOccurrences, h]
    exact filterMap_goodPos e.word ps

theorem invertedIndexToText_cleanEntry (entries : List InvEntry) :
    invertedIndexToText (some (entries.map cleanEntry)) =
      invertedIndexToText (some entries) := by
  have hocc : (entries.map cleanEntry).map entryOccurrences =
      entries.map entryOccurrences := by
    rw [List.map_map]
    exact List.map_congr_left (fun e _ => entryOccurrences_cleanEntry e)
  simp only [invertedIndexToText, hocc]

/-- C8: `invertedIndexToText` maps a well-formed OpenAlex inverted index to
the words sorted by ascending position joined with single spaces (duplicate
positions preserved); entries with non-array, non-numeric, or negative
positions are ignored; a null or empty index yields null; and the two
concrete examples from the spec evaluate as stated. -/
theorem c8_invertedIndexToText_spec :
    invertedIndexToText none = none ∧
    invertedIndexToText (some []) = none ∧
    (∀ entries : List InvEntry,
      invertedIndexToText (some (entries.map cleanEntry)) =
        invertedIndexToText (some entries)) ∧
    (∀ entries : List InvEntry,
      ((entries.map entryOccurrences).flatten = [] →
        invertedIndexToText (some entries) = none) ∧
      ((entries.map entryOccurrences).flatten ≠ [] →
        ∃ l : List (Int × String),
          l.Perm (entries.map entryOccurrences).flatten ∧
          l.Sorted posLe ∧
          invertedIndexToText (some entries) =
            some (String.intercalate (" ") (l.map (fun w => w.2))))) ∧
    invertedIndexToText (some [⟨"This", some [JsonPos.num 0]⟩,
        ⟨"is", some [JsonPos.num 1]⟩, ⟨"a", some [JsonPos.num 2]⟩,
        ⟨"test", some [JsonPos.num 3]⟩]) = some ("This is a test") ∧
    invertedIndexToText (some [⟨"the", some [JsonPos.num 0, JsonPos.num 3]⟩,
        ⟨"cat", some [JsonPos.num 1]⟩, ⟨"chased", some [JsonPos.num 2]⟩,
        ⟨"mouse", some [JsonPos.num 4]⟩]) = some ("the cat chased the mouse") := by
  refine ⟨rfl, rfl, invertedIndexToText_cleanEntry, fun entries => ⟨?_, ?_⟩, by decide, by decide⟩
  · intro h
    simp [invertedIndexToText, h]
  · intro h
    refine ⟨(entries.map entryOccurrences).flatten.insertionSort posLe,
      List.perm_insertionSort posLe _, List.sorted_insertionSort posLe _, ?_⟩
    simp [invertedIndexToText, h]

/-- Witness for C8: the hypothesis of the non-empty branch is satisfiable
at a concrete index. -/
theorem c8_invertedIndexToText_spec_witness :
    (([⟨"cat", some [JsonPos.num 1]⟩] : List InvEntry).map
        entryOccurrences).flatten ≠ [] ∧
    ∃ l : List (Int × String),
      l.Perm (([⟨"cat", some [JsonPos.num 1]⟩] : List InvEntry).map
        entryOccurrences).flatten ∧
      l.Sorted posLe ∧
      invertedIndexToText (some [⟨"cat", some [JsonPos.num 1]⟩]) =
        some (String.intercalate (" ") (l.map (fun w => w.2))) :=
  ⟨by decide,
    (c8_invertedIndexToText_spec.2.2.2.1 [⟨"cat", some [JsonPos.num 1]⟩]).2 (by decide)⟩

/-! ## Section 2: the paper store and `upsertPaper`

Embeds the `papers` table of `src/storage/database.ts`.  A row holds the
SQLite-assigned integer `paper_id` and the thirteen `Paper` columns
(`created_at` is a database default irrelevant to every claim and is
omitted).  REAL columns are modelled as `Rat`, integer columns as `Int`,
nullable columns as `Option`.  `upsertPaper` (lines 187-213) is the
`INSERT ... ON CONFLICT(source, source_id) DO UPDATE` statement: thanks to
the unique index `idx_papers_source_unique` at most one row carries a
given key, and the conflicting row is updated field-wise. -/

structure Paper where
  source : String
  source_id : String
  doi : Option String
  arxiv_id : Option String
  title : String
  abstract : Option String
  year : Option Int
  venue : Option String
  url : Option String
  citation_count : Int
  influence_score : Option Rat
  keywords_json : Option String
  concepts_json : Option String
deriving DecidableEq, Repr

structure PaperRow where
  paper_id : Nat
  data : Paper
deriving DecidableEq, Repr

/-- The row matches the unique key `(source, source_id)` of `p`. -/
def matchesKey (p : Paper) (r : PaperRow) : Prop :=
  r.data.source = p.source ∧ r.data.source_id = p.source_id

instance (p : Paper) (r : PaperRow) : Decidable (matchesKey p r) :=
  inferInstanceAs (Decidable (_ ∧ _))

/-- The `DO UPDATE SET` clause: title replaced, nullable columns coalesced
with the incoming (`excluded`) value preferred, `citation_count` taken as
the two-argument SQLite `MAX`. -/
def mergePaper (old incoming : Paper) : Paper where
  source := old.source
  source_id := old.source_id
  doi := incoming.doi.orElse (fun _ => old.doi)
  arxiv_id := incoming.arxiv_id.orElse (fun _ => old.arxiv_id)
  title := incoming.title
  abstract := incoming.abstract.orElse (fun _ => old.abstract)
  year := incoming.year.orElse (fun _ => old.year)
  venue := incoming.venue.orElse (fun _ => old.venue)
  url := incoming.url.orElse (fun _ => old.url)
  citation_count := max old.citation_count incoming.citation_count
  influence_score := incoming.influence_score.orElse (fun _ => old.influence_score)
  keywords_json := incoming.keywords_json.orElse (fun _ => old.keywords_json)
  concepts_json := incoming.concepts_json.orElse (fun _ => old.concepts_json)

/-- The effect of the `DO UPDATE` on one row: the conflicting row is
merged, every other row is untouched. -/
def updRow (p : Paper) (r : PaperRow) : PaperRow :=
  if matchesKey p r then ⟨r.paper_id, mergePaper r.data p⟩ else r

/-- `upsertPaper`: insert a fresh row with the next rowid, or update the
row that conflicts on `(source, source_id)`. -/
def upsertPaper (table : List PaperRow) (nextId : Nat) (p : Paper) :
    List PaperRow × Nat :=
  if table.any (fun r => decide (matchesKey p r)) then
    (table.map (updRow p), nextId)
  else (table ++ [⟨nextId, p⟩], nextId + 1)

/-- The unique index on `papers(source, source_id)`: keys are pairwise
distinct. -/
def nodupKeys (table : List PaperRow) : Prop :=
  (table.map (fun r => (r.data.source, r.data.source_id))).Nodup

theorem mergePaper_key (old incoming : Paper) :
    (mergePaper old incoming).source = old.source ∧
    (mergePaper old incoming).source_id = old.source_id := ⟨rfl, rfl⟩

theorem orElse_self {α : Type} (o : Option α) : o.orElse (fun _ => o) = o := by
  cases o <;> rfl

theorem mergePaper_self (p : Paper) : mergePaper p p = p := by
  cases p
  simp only [mergePaper, orElse_self, max_self]

theorem orElse_orElse {α : Type} (a b : Option α) :
    a.orElse (fun _ => a.orElse (fun _ => b)) = a.orElse (fun _ => b) := by
  cases a <;> rfl

theorem mergePaper_absorb (a p : Paper) :
    mergePaper (mergePaper a p) p = mergePaper a p := by
  cases a; cases p
  simp [mergePaper, orElse_orElse, Paper.mk.injEq, max_assoc]

theorem updRow_of_matches (p : Paper) (r : PaperRow) (h : matchesKey p r) :
    updRow p r = ⟨r.paper_id, mergePaper r.data p⟩ := by
  simp [updRow, h]

theorem updRow_of_not_matches (p : Paper) (r : PaperRow) (h : ¬ matchesKey p r) :
    updRow p r = r := by
  simp [updRow, h]

theorem matchesKey_updRow (p : Paper) (r : PaperRow) :
    matchesKey p (updRow p r) ↔ matchesKey p r := by
  by_cases h : matchesKey p r
  · rw [updRow_of_matches p r h]
    simp [matchesKey, mergePaper, h.1, h.2]
  · rw [updRow_of_not_matches p r h]

theorem updRow_updRow (p : Paper) (r : PaperRow) :
    updRow p (updRow p r) = updRow p r := by
  by_cases h : matchesKey p r
  · have h2 : matchesKey p (updRow p r) := (matchesKey_updRow p r).mpr h
    rw [updRow_of_matches p r h] at h2 ⊢
    rw [updRow_of_matches p _ h2]
    simp [mergePaper_absorb]
  · rw [updRow_of_not_matches p r h, updRow_of_not_matches p r h]

/-- A table with pairwise distinct keys contains at most one row matching
any given key; if some row matches, the matching rows are exactly one. -/
theorem length_filter_matchesKey_of_nodup (p : Paper) (table : List PaperRow)
    (hnd : nodupKeys table) :
    (table.filter (fun r => decide (matchesKey p r))).length ≤ 1 := by
  induction table with
  | nil => simp
  | cons r t ih =>
    have hnd' : nodupKeys t := by
      have := hnd
      simp only [nodupKeys, List.map_cons, List.nodup_cons] at this
      exact this.2
    by_cases h : matchesKey p r
    · have hnone : ∀ r' ∈ t, ¬ matchesKey p r' := by
        intro r' hr' hm
        have hkey : (r.data.source, r.data.source_id) ∉
            t.map (fun x => (x.data.source, x.data.source_id)) := by
          have := hnd
          simp only [nodupKeys, List.map_cons, List.nodup_cons] at this
          exact this.1
        exact hkey (by
          refine List.mem_map.mpr ⟨r', hr', ?_⟩
          obtain ⟨h1, h2⟩ := h
          obtain ⟨h1', h2'⟩ := hm
          simp [h1, h2, h1', h2'])
      have : t.filter (fun r => decide (matchesKey p r)) = [] :=
        List.filter_eq_nil_iff.mpr (by intro a ha; simpa using hnone a ha)
      simp [List.filter, h, this]
    · simpa [List.filter, h] using ih hnd'

/-- C9: upserting a Paper leaves exactly one row for its
`(source, source_id)` key; on conflict the row is merged with title
replaced, nullable fields coalesced (incoming value preferred when
non-null) and `citation_count` the maximum of stored and incoming; and
upserting the identical record a second time changes nothing. -/
theorem c9_upsertPaper_idempotent_merge (table : List PaperRow) (nextId : Nat)
    (p : Paper) (hnd : nodupKeys table) :
    (((upsertPaper table nextId p).1.filter
        (fun r => decide (matchesKey p r))).length = 1) ∧
    (upsertPaper (upsertPaper table nextId p).1 (upsertPaper table nextId p).2 p =
      upsertPaper table nextId p) ∧
    (∀ r0 ∈ table, matchesKey p r0 →
      ∀ r ∈ (upsertPaper table nextId p).1, matchesKey p r →
        r.data.title = p.title ∧
        r.data.doi = p.doi.orElse (fun _ => r0.data.doi) ∧
        r.data.arxiv_id = p.arxiv_id.orElse (fun _ => r0.data.arxiv_id) ∧
        r.data.abstract = p.abstract.orElse (fun _ => r0.data.abstract) ∧
        r.data.year = p.year.orElse (fun _ => r0.data.year) ∧
        r.data.venue = p.venue.orElse (fun _ => r0.data.venue) ∧
        r.data.url = p.url.orElse (fun _ => r0.data.url) ∧
        r.data.influence_score =
          p.influence_score.orElse (fun _ => r0.data.influence_score) ∧
        r.data.keywords_json =
          p.keywords_json.orElse (fun _ => r0.data.keywords_json) ∧
        r.data.concepts_json =
          p.concepts_json.orElse (fun _ => r0.data.concepts_json) ∧
        r.data.citation_count = max r0.data.citation_count p.citation_count) ∧
    ((∀ r0 ∈ table, ¬ matchesKey p r0) →
      ∀ r ∈ (upsertPaper table nextId p).1, matchesKey p r → r.data = p) := by
  by_cases h : table.any (fun r => decide (matchesKey p r)) = true
  · have ht1 : upsertPaper table nextId p = (table.map (updRow p), nextId) := by
      simp [upsertPaper, h]
    obtain ⟨x, hx, hqx⟩ := List.any_eq_true.mp h
    have hxm : matchesKey p x := of_decide_eq_true hqx
    refine ⟨?_, ?_, ?_, ?_⟩
    · rw [ht1]
      have hfm : (table.map (updRow p)).filter (fun r => decide (matchesKey p r)) =
          (table.filter (fun r => decide (matchesKey p r))).map (updRow p) := by
        rw [List.filter_map]
        congr 1
        apply List.filter_congr
        intro r _
        simp [Function.comp, matchesKey_updRow]
      rw [hfm, List.length_map]
      refine Nat.le_antisymm (length_filter_matchesKey_of_nodup p table hnd) ?_
      have hmem : x ∈ table.filter (fun r => decide (matchesKey p r)) :=
        List.mem_filter.mpr ⟨hx, hqx⟩
      exact List.length_pos.mpr (fun hemp => by simp [hemp] at hmem)
    · rw [ht1]
      have h2 : (table.map (updRow p)).any (fun r => decide (matchesKey p r)) = true := by
        refine List.any_eq_true.mpr ⟨updRow p x, List.mem_map_of_mem _ hx, ?_⟩
        exact decide_eq_true ((matchesKey_updRow p x).mpr hxm)
      simp only [upsertPaper, h2, if_true, Prod.mk.injEq, and_true]
      rw [List.map_map]
      exact List.map_congr_left (fun r _ => updRow_updRow p r)
    · intro r0 hr0 hm0 r hr hmr
      rw [ht1] at hr
      obtain ⟨r', hr', rfl⟩ := List.mem_map.mp hr
      have hmr' : matchesKey p r' := (matchesKey_updRow p r').mp hmr
      have hr'eq : r' = r0 := by
        refine List.inj_on_of_nodup_map hnd hr' hr0 ?_
        obtain ⟨a1, a2⟩ := hmr'
        obtain ⟨b1, b2⟩ := hm0
        simp [a1, a2, b1, b2]
      subst hr'eq
      rw [updRow_of_matches p r' hmr']
      simp [mergePaper]
    · intro hall
      exact absurd hxm (hall x hx)
  · have ht1 : upsertPaper table nextId p = (table ++ [⟨nextId, p⟩], nextId + 1) := by
      simp only [upsertPaper, if_neg h]
    have hnomatch : ∀ r ∈ table, ¬ matchesKey p r := by
      intro r hr hm
      exact h (List.any_eq_true.mpr ⟨r, hr, decide_eq_true hm⟩)
    have hnewm : matchesKey p (⟨nextId, p⟩ : PaperRow) := ⟨rfl, rfl⟩
    refine ⟨?_, ?_, ?_, ?_⟩
    · rw [ht1]
      have hnil : table.filter (fun r => decide (matchesKey p r)) = [] :=
        List.filter_eq_nil_iff.mpr (by intro a ha; simpa using hnomatch a ha)
      simp [List.filter_append, hnil, List.filter, hnewm]
    · rw [ht1]
      have hmemnew : (⟨nextId, p⟩ : PaperRow) ∈ table ++ [⟨nextId, p⟩] :=
        List.mem_append_right _ (List.mem_singleton.mpr rfl)
      have h2 : ((table ++ [(⟨nextId, p⟩ : PaperRow)]).any
          (fun r => decide (matchesKey p r))) = true :=
        List.any_eq_true.mpr ⟨⟨nextId, p⟩, hmemnew, decide_eq_true hnewm⟩
      simp only [upsertPaper, h2, if_true, Prod.mk.injEq, and_true]
      rw [List.map_append]
      have hta : table.map (updRow p) = table := by
        have := List.map_congr_left
          (fun r hr => updRow_of_not_matches p r (hnomatch r hr))
        rw [this]
        exact List.map_id' table
      rw [hta]
      congr 1
      simp [updRow_of_matches p _ hnewm, mergePaper_self]
    · intro r0 hr0 hm0
      exact absurd hm0 (hnomatch r0 hr0)
    · intro _ r hr hmr
      rw [ht1] at hr
      rcases List.mem_append.mp hr with hmem | hmem
      · exact absurd hmr (hnomatch r hmem)
      · rw [List.mem_singleton.mp hmem]

/-- Witness for C9: the hypotheses hold at a concrete table and paper. -/
theorem c9_upsertPaper_idempotent_merge_witness :
    nodupKeys ([] : List PaperRow) ∧
    (((upsertPaper ([] : List PaperRow) 0
        ⟨"openalex", "W1", none, none, "T", none, none, none, none,
          3, none, none, none⟩).1.filter
      (fun r => decide (matchesKey
        ⟨"openalex", "W1", none, none, "T", none, none, none, none,
          3, none, none, none⟩ r))).length = 1) :=
  ⟨by simp [nodupKeys],
    (c9_upsertPaper_idempotent_merge [] 0
      ⟨"openalex", "W1", none, none, "T", none, none, none, none,
        3, none, none, none⟩ (by simp [nodupKeys])).1⟩

/-! ## Section 3: response cache and HTTP transport

Embeds `ResponseCache` from `src/cache/response-cache.ts` and
`HttpClient.request` from the HTTP client module.  The filesystem cache
directory becomes an association list keyed by URL (the SHA-256 `makeKey`
is injective on the URLs of a run, so the hash step is dropped);
`Date.now()` becomes an explicit `now` parameter in milliseconds.  The
payload type is `String` (a decoded JSON body).  `HttpClient.request` is
modelled over an oracle `fetch : Nat → FetchOutcome` giving the outcome of
the attempt-numbered network call; the model returns the result together
with the number of network calls issued.  Note that `request` takes no
cache argument at all: the source consults no cache. -/

namespace ResponseCache

structure State where
  enabled : Bool
  ttlMs : Nat
  entries : List (String × (Nat × String))
deriving DecidableEq, Repr

/-- Constructor: `ttlMs = (options.ttlHours ?? 24) * 60 * 60 * 1000`,
empty directory. -/
def mk_ (enabled : Bool) (ttlHours : Nat) : State :=
  ⟨enabled, ttlHours * 60 * 60 * 1000, []⟩

/-- `ResponseCache.get`: `null` when disabled, missing, or older than the
TTL, otherwise the stored payload.  JS computes `Date.now() - timestamp`
which for a future timestamp is negative and hence not `> ttlMs`; `Nat`
truncated subtraction gives the same comparison outcome. -/
def get (st : State) (now : Nat) (url : String) : Option String :=
  if st.enabled = false then none
  else match st.entries.lookup url with
    | none => none
    | some (ts, d) => if now - ts > st.ttlMs then none else some d

/-- Insert-or-replace one file in the cache directory
(`writeFileSync` overwrites; last writer wins). -/
def writeEntry (entries : List (String × (Nat × String))) (url : String)
    (v : Nat × String) : List (String × (Nat × String)) :=
  if entries.any (fun e => decide (e.1 = url)) then
    entries.map (fun e => if e.1 = url then (url, v) else e)
  else entries ++ [(url, v)]

/-- `ResponseCache.set`: a no-op when disabled, otherwise stores
`entry = (timestamp, data)` under the URL key. -/
def set (st : State) (now : Nat) (url : String) (d : String) : State :=
  if st.enabled = false then st
  else { st with entries := writeEntry st.entries url (now, d) }

end ResponseCache

namespace HttpClient

/-- Classification sets from the top of the HTTP client module. -/
def RETRYABLE_STATUS_CODES : List Nat := [429, 500, 502, 503, 504]

def RETRYABLE_ERROR_CODES : List String :=
  ["ECONNRESET", "ECONNREFUSED", "ETIMEDOUT", "UND_ERR_SOCKET",
   "UND_ERR_CONNECT_TIMEOUT"]

/-- The outcome of one attempted network call: a response with `ok` status
(JS: 200-299), a non-ok response (with optional Retry-After), a thrown
network error carrying an error code, or an abort on timeout. -/
inductive FetchOutcome where
  | success (status : Nat) (data : String)
  | httpFailure (status : Nat) (retryAfter : Option Nat) (data : String)
  | netFailure (code : String)
  | aborted
deriving DecidableEq, Repr

/-- `HttpError`: status, retryable flag, optional response payload. -/
structure HttpErr where
  status : Nat
  retryable : Bool
  response : Option String
deriving DecidableEq, Repr

/-- The retry loop of `HttpClient.request`, starting at `attempt`.  The
second component counts network calls issued so far (including this
round).  `maxRetries = 3` as in the source; the `fuel` argument makes the
recursion structural and is always at least `maxRetries + 1 - attempt`
when called, so the fuel-exhausted branch (the source's unreachable
`Max retries exceeded` throw) is never taken from `request`.  Note that
an `AbortError` has no `code` field, so its `retryable` classification in
the catch block is `false` and it is never retried, only rethrown as a
retryable `HttpError`. -/
def requestGo (fetch : Nat → FetchOutcome) : Nat → Nat →
    Except HttpErr (Nat × String) × Nat
  | attempt, 0 => (Except.error ⟨0, false, none⟩, attempt)
  | attempt, fuel + 1 =>
    match fetch attempt with
    | FetchOutcome.success st d => (Except.ok (st, d), attempt + 1)
    | FetchOutcome.httpFailure st _ d =>
        let retryable := st ∈ RETRYABLE_STATUS_CODES
        if retryable ∧ attempt < 3 then requestGo fetch (attempt + 1) fuel
        else (Except.error ⟨st, decide retryable, some d⟩, attempt + 1)
    | FetchOutcome.netFailure code =>
        let retryable := code ∈ RETRYABLE_ERROR_CODES
        if retryable ∧ attempt < 3 then requestGo fetch (attempt + 1) fuel
        else (Except.error ⟨0, decide retryable, none⟩, attempt + 1)
    | FetchOutcome.aborted => (Except.error ⟨0, true, none⟩, attempt + 1)

/-- `HttpClient.request`: run the retry loop from attempt 0.  The request
headers, body and rate-limit token acquisition do not affect which
outcome is returned and are not modelled; crucially, no cache is consulted
anywhere in the function. -/
def request (fetch : Nat → FetchOutcome) : Except HttpErr (Nat × String) × Nat :=
  requestGo fetch 0 4

theorem requestGo_calls_ge (fetch : Nat → FetchOutcome) :
    ∀ fuel attempt, attempt ≤ (requestGo fetch attempt fuel).2 := by
  intro fuel
  induction fuel with
  | zero => intro attempt; simp [requestGo]
  | succ f ih =>
    intro attempt
    simp only [requestGo]
    cases fetch attempt with
    | success st d => exact Nat.le_succ attempt
    | httpFailure st ra d =>
      by_cases h : st ∈ RETRYABLE_STATUS_CODES ∧ attempt < 3
      · simp only [if_pos h]
        exact le_trans (Nat.le_succ attempt) (ih (attempt + 1))
      · simp only [if_neg h]
        exact Nat.le_succ attempt
    | netFailure code =>
      by_cases h : code ∈ RETRYABLE_ERROR_CODES ∧ attempt < 3
      · simp only [if_pos h]
        exact le_trans (Nat.le_succ attempt) (ih (attempt + 1))
      · simp only [if_neg h]
        exact Nat.le_succ attempt
    | aborted => exact Nat.le_succ attempt

end HttpClient

/-- Lookup after in-place replacement of the matching cache file. -/
theorem lookup_replace (url : String) (v : Nat × String) :
    ∀ l : List (String × (Nat × String)), (∃ e ∈ l, e.1 = url) →
      (l.map (fun e => if e.1 = url then (url, v) else e)).lookup url = some v := by
  intro l
  induction l with
  | nil => intro h; simp at h
  | cons x xs ih =>
    intro h
    by_cases hx : x.1 = url
    · simp only [List.map_cons]
      rw [if_pos hx]
      simp [List.lookup]
    · have h' : ∃ e ∈ xs, e.1 = url := by
        obtain ⟨e, hmem, heq⟩ := h
        rcases List.mem_cons.mp hmem with hh | hh
        · exact absurd (hh ▸ heq) hx
        · exact ⟨e, hh, heq⟩
      simp only [List.map_cons]
      rw [if_neg hx]
      simp only [List.lookup]
      rw [show (url == x.1) = false from beq_eq_false_iff_ne.mpr (Ne.symm hx)]
      exact ih h'

/-- Lookup after appending a fresh cache file at the end. -/
theorem lookup_append_fresh (url : String) (v : Nat × String) :
    ∀ l : List (String × (Nat × String)), (∀ e ∈ l, e.1 ≠ url) →
      ((l ++ [(url, v)]).lookup url = some v) := by
  intro l
  induction l with
  | nil => intro _; simp [List.lookup]
  | cons x xs ih =>
    intro h
    have hx : x.1 ≠ url := h x (List.mem_cons_self x xs)
    simp only [List.cons_append, List.lookup]
    rw [show (url == x.1) = false from beq_eq_false_iff_ne.mpr (Ne.symm hx)]
    exact ih (fun e hmem => h e (List.mem_cons_of_mem x hmem))

/-- C5 counterexample: at a concrete state in which the response cache
holds a non-expired entry for the URL, `HttpClient.request` still issues a
network call (the call count is 1, not 0) and returns the network payload,
not the cached payload. -/
theorem c5_transport_ignores_cache_counterexample :
    ResponseCache.get ⟨true, 86400000, [("u", (500, "cached"))]⟩ 1000 ("u")
      = some ("cached") ∧
    (HttpClient.request (fun _ => HttpClient.FetchOutcome.success 200 ("fetched"))).2
      = 1 ∧
    (HttpClient.request (fun _ => HttpClient.FetchOutcome.success 200 ("fetched"))).1
      = Except.ok (200, "fetched") := by
  refine ⟨?_, rfl, rfl⟩
  simp [ResponseCache.get, List.lookup]

/-- C5 amended: the transport performs no response caching — every request
issues at least one network call whatever the cache holds — while the
standalone `ResponseCache` treats entries older than the TTL as misses,
returns the payload of non-expired entries, and `set` stores the payload
with the current timestamp. -/
theorem c5_transport_and_cache_amended :
    (∀ fetch : Nat → HttpClient.FetchOutcome,
      1 ≤ (HttpClient.request fetch).2) ∧
    (∀ (st : ResponseCache.State) (now : Nat) (url : String) (ts : Nat) (d : String),
      st.entries.lookup url = some (ts, d) →
      now - ts > st.ttlMs →
      ResponseCache.get st now url = none) ∧
    (∀ (st : ResponseCache.State) (now : Nat) (url : String) (ts : Nat) (d : String),
      st.enabled = true →
      st.entries.lookup url = some (ts, d) →
      ¬ (now - ts > st.ttlMs) →
      ResponseCache.get st now url = some d) ∧
    (∀ (st : ResponseCache.State) (now : Nat) (url : String) (d : String),
      st.enabled = true →
      (ResponseCache.set st now url d).entries.lookup url = some (now, d)) := by
  refine ⟨?_, ?_, ?_, ?_⟩
  · intro fetch
    show 1 ≤ (HttpClient.requestGo fetch 0 4).2
    simp only [HttpClient.requestGo]
    cases fetch 0 with
    | success st d => exact le_refl 1
    | httpFailure st ra d =>
      by_cases h : st ∈ HttpClient.RETRYABLE_STATUS_CODES ∧ 0 < 3
      · simp only [if_pos h]
        exact HttpClient.requestGo_calls_ge fetch 3 1
      · simp only [if_neg h]
        exact le_refl 1
    | netFailure code =>
      by_cases h : code ∈ HttpClient.RETRYABLE_ERROR_CODES ∧ 0 < 3
      · simp only [if_pos h]
        exact HttpClient.requestGo_calls_ge fetch 3 1
      · simp only [if_neg h]
        exact le_refl 1
    | aborted => exact le_refl 1
  · intro st now url ts d hlk hold
    by_cases he : st.enabled = false
    · simp [ResponseCache.get, he]
    · simp [ResponseCache.get, he, hlk, hold]
  · intro st now url ts d he hlk hfresh
    have he' : ¬ (st.enabled = false) := by simp [he]
    simp [ResponseCache.get, he', hlk, hfresh]
  · intro st now url d he
    have he' : ¬ (st.enabled = false) := by simp [he]
    simp only [ResponseCache.set, if_neg he']
    show (ResponseCache.writeEntry st.entries url (now, d)).lookup url = some (now, d)
    by_cases h : st.entries.any (fun e => decide (e.1 = url))
    · have hex : ∃ e ∈ st.entries, e.1 = url := by
        obtain ⟨e, hmem, hq⟩ := List.any_eq_true.mp h
        exact ⟨e, hmem, of_decide_eq_true hq⟩
      simp only [ResponseCache.writeEntry, if_pos h]
      exact lookup_replace url (now, d) st.entries hex
    · have hnm : ∀ e ∈ st.entries, e.1 ≠ url := by
        intro e hmem heq
        exact h (List.any_eq_true.mpr ⟨e, hmem, decide_eq_true heq⟩)
      simp only [ResponseCache.writeEntry, if_neg h]
      exact lookup_append_fresh url (now, d) st.entries hnm

/-- Witness for C5 amended: applied at a concrete cache state and fetch
oracle. -/
theorem c5_transport_and_cache_amended_witness :
    (⟨true, 100, [("u", (50, "d"))]⟩ : ResponseCache.State).enabled = true ∧
    ResponseCache.get ⟨true, 100, [("u", (50, "d"))]⟩ 60 ("u") = some ("d") :=
  ⟨rfl, c5_transport_and_cache_amended.2.2.1 ⟨true, 100, [("u", (50, "d"))]⟩
    60 "u" 50 "d" rfl (by decide) (by decide)⟩

/-! ## Section 4: cosine similarity over sparse TF-IDF vectors

Embeds `cosineSimilarity` from `src/nlp/similarity.ts` (lines 9-48).  A JS
`Map<string, number>` becomes an association list with pairwise distinct
keys; JS floating-point numbers become real numbers.  The source first
accumulates `normA` over the smaller map and runs a no-op loop over the
larger map, then discards both accumulators and recomputes `normA` from
`vecA` and `normB` from `vecB` (lines 38-42); the model keeps the final
values.  Only the dot product depends on the smaller/larger selection. -/

/-- A sparse weight vector: term to weight, insertion-ordered. -/
abbrev Vec := List (String × Real)

/-- Distinct keys, the `Map` invariant. -/
def vecNodup (v : Vec) : Prop := (v.map Prod.fst).Nodup

/-- The weight a map lookup yields for a term, `0` when absent. -/
noncomputable def wt (v : Vec) (t : String) : Real := ((v.lookup t).getD 0)

/-- The dot-product loop: iterate the smaller vector, adding
`weightA * weightB` whenever the term is also present in the larger
vector. -/
noncomputable def dotList (smaller larger : Vec) : Real :=
  smaller.foldl (fun acc p =>
    match larger.lookup p.1 with
    | some wB => acc + p.2 * wB
    | none => acc) 0

/-- The recomputed squared norm of a vector (lines 38-42). -/
noncomputable def normSq (v : Vec) : Real :=
  v.foldl (fun acc p => acc + p.2 * p.2) 0

/-- `cosineSimilarity`: `0` on an empty vector, the smaller map drives the
dot product, `0` on a zero denominator, else `dot / (sqrt normA * sqrt
normB)`. -/
noncomputable def cosineSimilarity (vecA vecB : Vec) : Real :=
  if vecA.length = 0 ∨ vecB.length = 0 then 0
  else
    let sl := if vecA.length ≤ vecB.length then (vecA, vecB) else (vecB, vecA)
    let dotP := dotList sl.1 sl.2
    let normA := normSq vecA
    let normB := normSq vecB
    let denom := Real.sqrt normA * Real.sqrt normB
    if denom = 0 then 0 else dotP / denom

/-- One dot-product contribution of an entry of the iterated vector. -/
noncomputable def dotTerm (v : Vec) (p : String × Real) : Real :=
  match v.lookup p.1 with
  | some w => p.2 * w
  | none => 0

theorem dotTerm_eq (v : Vec) (p : String × Real) : dotTerm v p = p.2 * wt v p.1 := by
  cases h : v.lookup p.1 <;> simp [dotTerm, wt, h]

theorem foldl_add_eq_sum {α : Type} (f : α → Real) :
    ∀ (l : List α) (a : Real), l.foldl (fun acc x => acc + f x) a = a + (l.map f).sum := by
  intro l
  induction l with
  | nil => intro a; simp
  | cons x xs ih =>
    intro a
    simp only [List.foldl_cons, List.map_cons, List.sum_cons, ih (a + f x)]
    ring

theorem dotList_eq_sum_map (u v : Vec) : dotList u v = (u.map (dotTerm v)).sum := by
  have hfun : (fun (acc : Real) (p : String × Real) =>
      match v.lookup p.1 with
      | some wB => acc + p.2 * wB
      | none => acc) = fun acc p => acc + dotTerm v p := by
    funext acc p
    cases h : v.lookup p.1 <;> simp [dotTerm, h]
  rw [dotList, hfun, foldl_add_eq_sum (dotTerm v) u 0, zero_add]

theorem normSq_eq_sum_map (v : Vec) : normSq v = (v.map (fun p => p.2 * p.2)).sum := by
  rw [normSq, foldl_add_eq_sum (fun p => p.2 * p.2) v 0, zero_add]

theorem lookup_eq_none_of_not_mem_keys {β : Type} (t : String) :
    ∀ v : List (String × β), t ∉ v.map Prod.fst → v.lookup t = none := by
  intro v
  induction v with
  | nil => intro _; rfl
  | cons x xs ih =>
    intro h
    have hx : t ≠ x.1 := by
      intro he
      exact h (by simp [he])
    simp only [List.lookup]
    rw [show (t == x.1) = false from beq_eq_false_iff_ne.mpr hx]
    exact ih (fun hm => h (List.mem_cons_of_mem _ hm))

theorem lookup_of_mem_nodup {β : Type} :
    ∀ (v : List (String × β)), (v.map Prod.fst).Nodup →
      ∀ p ∈ v, v.lookup p.1 = some p.2 := by
  intro v
  induction v with
  | nil => intro _ p hp; simp at hp
  | cons x xs ih =>
    intro hnd p hp
    have hnd' : (xs.map Prod.fst).Nodup := by
      simp only [List.map_cons, List.nodup_cons] at hnd
      exact hnd.2
    have hx1 : x.1 ∉ xs.map Prod.fst := by
      simp only [List.map_cons, List.nodup_cons] at hnd
      exact hnd.1
    rcases List.mem_cons.mp hp with hh | hh
    · subst hh
      simp [List.lookup]
    · have hne : p.1 ≠ x.1 := by
        intro he
        exact hx1 (he ▸ List.mem_map_of_mem Prod.fst hh)
      simp only [List.lookup]
      rw [show (p.1 == x.1) = false from beq_eq_false_iff_ne.mpr hne]
      exact ih hnd' p hh

theorem wt_eq_zero_of_not_mem (v : Vec) (t : String) (h : t ∉ v.map Prod.fst) :
    wt v t = 0 := by
  simp [wt, lookup_eq_none_of_not_mem_keys t v h]

theorem dotList_eq_finset_sum (u v : Vec) (hu : vecNodup u) :
    dotList u v = ∑ t ∈ (u.map Prod.fst).toFinset, wt u t * wt v t := by
  rw [dotList_eq_sum_map]
  rw [List.sum_toFinset _ hu]
  rw [List.map_map]
  refine congrArg List.sum ?_
  apply List.map_congr_left
  intro p hp
  have hlk : u.lookup p.1 = some p.2 := lookup_of_mem_nodup u hu p hp
  simp [Function.comp, dotTerm_eq, wt, hlk]

theorem dotList_eq_inter_sum (u v : Vec) (hu : vecNodup u) :
    dotList u v =
      ∑ t ∈ (u.map Prod.fst).toFinset ∩ (v.map Prod.fst).toFinset,
        wt u t * wt v t := by
  rw [dotList_eq_finset_sum u v hu]
  refine (Finset.sum_subset Finset.inter_subset_left ?_).symm
  intro t ht htn
  have hv : t ∉ v.map Prod.fst := by
    intro hm
    exact htn (Finset.mem_inter.mpr ⟨ht, List.mem_toFinset.mpr hm⟩)
  rw [wt_eq_zero_of_not_mem v t hv, mul_zero]

theorem dotList_comm (u v : Vec) (hu : vecNodup u) (hv : vecNodup v) :
    dotList u v = dotList v u := by
  rw [dotList_eq_inter_sum u v hu, dotList_eq_inter_sum v u hv, Finset.inter_comm]
  exact Finset.sum_congr rfl (fun t _ => mul_comm _ _)

/-- The order-independent normal form of `cosineSimilarity` for duplicate-
free vectors: whichever of the two vectors drives the dot loop, the value
is `dotList u v / (sqrt (normSq u) * sqrt (normSq v))` guarded by the two
zero checks. -/
theorem cosineSimilarity_normal_form (u v : Vec) (hu : vecNodup u) (hv : vecNodup v) :
    cosineSimilarity u v =
      if u.length = 0 ∨ v.length = 0 then 0
      else if Real.sqrt (normSq u) * Real.sqrt (normSq v) = 0 then 0
      else dotList u v / (Real.sqrt (normSq u) * Real.sqrt (normSq v)) := by
  have hdot : dotList (if u.length ≤ v.length then (u, v) else (v, u)).1
      (if u.length ≤ v.length then (u, v) else (v, u)).2 = dotList u v := by
    by_cases hle : u.length ≤ v.length
    · rw [if_pos hle]
    · rw [if_neg hle]
      exact dotList_comm v u hv hu
  simp only [cosineSimilarity]
  rw [hdot]

/-- C10: `cosineSimilarity` is commutative for every pair of sparse weight
vectors (with the duplicate-free keys every JS `Map` guarantees), despite
the implementation iterating the smaller vector for the dot product. -/
theorem c10_cosineSimilarity_comm (u v : Vec) (hu : vecNodup u) (hv : vecNodup v) :
    cosineSimilarity u v = cosineSimilarity v u := by
  rw [cosineSimilarity_normal_form u v hu hv, cosineSimilarity_normal_form v u hv hu]
  by_cases h0 : u.length = 0 ∨ v.length = 0
  · rw [if_pos h0, if_pos (Or.symm h0)]
  · have h0' : ¬ (v.length = 0 ∨ u.length = 0) := fun hc => h0 (Or.symm hc)
    rw [if_neg h0, if_neg h0']
    by_cases hz : Real.sqrt (normSq u) * Real.sqrt (normSq v) = 0
    · have hz' : Real.sqrt (normSq v) * Real.sqrt (normSq u) = 0 := by
        rwa [mul_comm] at hz
      rw [if_pos hz, if_pos hz']
    · have hz' : ¬ (Real.sqrt (normSq v) * Real.sqrt (normSq u) = 0) :=
        fun hc => hz (by rwa [mul_comm] at hc)
      rw [if_neg hz, if_neg hz']
      rw [dotList_comm u v hu hv, mul_comm (Real.sqrt (normSq v))]

/-- Witness for C10 at two concrete vectors of different sizes. -/
theorem c10_cosineSimilarity_comm_witness :
    vecNodup [("alpha", (2 : Real))] ∧
    vecNodup [("alpha", (3 : Real)), ("beta", (1 : Real))] ∧
    cosineSimilarity [("alpha", (2 : Real))]
        [("alpha", (3 : Real)), ("beta", (1 : Real))] =
      cosineSimilarity [("alpha", (3 : Real)), ("beta", (1 : Real))]
        [("alpha", (2 : Real))] :=
  ⟨by simp [vecNodup], by simp [vecNodup],
    c10_cosineSimilarity_comm _ _ (by simp [vecNodup]) (by simp [vecNodup])⟩

/-! ## Section 5: tokenizer and TF-IDF corpus

Embeds `tokenize` (the tokenizer module) and `buildCorpus` (the TF-IDF
module).  Modelling notes:
the regex replacement keeps `[a-z0-9\\s-]`; whitespace characters beyond
the six modelled here would be replaced by a space and then split on, which
produces the same token stream either way, so the smaller whitespace set is
behaviour-preserving.  `String.prototype.split(/\\s+/)` differs from
`List.splitOnP` only in empty segments, all of which the one-character
filter drops.  `JSON.parse` is a platform builtin, modelled by the
`parseKeywords` parameter (`none` covers both a parse failure, which the
source catches and ignores, and an absent keywords blob).  Stopword
entries containing an apostrophe are unreachable — after the regex
replacement no token can contain an apostrophe — and are omitted. -/

def isWsChar (c : Char) : Bool :=
  c == ' ' || c == '\t' || c == '\n' || c == '\r' || c == '\x0b' || c == '\x0c'

def isKeptChar (c : Char) : Bool :=
  ('a' ≤ c && c ≤ 'z') || ('0' ≤ c && c ≤ '9') || isWsChar c || c == '-'

/-- Trim leading and trailing hyphen runs (`replace(/^-+|-+$/g, ...)`). -/
def trimHyphens (t : List Char) : List Char :=
  ((t.dropWhile (fun c => c == '-')).reverse.dropWhile (fun c => c == '-')).reverse

/-- The reachable entries of the hardcoded stopword list. -/
def STOPWORDS : List String :=
  ["a", "about", "above", "after", "again", "against", "all", "am", "an", "and",
   "any", "are", "aren", "as", "at", "be", "because", "been", "before",
   "being", "below", "between", "both", "but", "by", "can", "could", "couldn",
   "d", "did", "didn", "do", "does", "doesn",
   "doing", "don", "down", "during", "each", "few", "for", "from",
   "further", "get", "got", "had", "hadn", "has", "hasn",
   "have", "haven", "having", "he", "her", "here", "hers", "herself",
   "him", "himself", "his", "how", "i", "if", "in", "into", "is", "isn",
   "it", "its", "itself", "just", "let", "ll", "m", "ma", "may", "me",
   "might", "mightn", "more", "most", "much", "must", "mustn",
   "my", "myself", "need", "needn", "no", "nor", "not",
   "now", "o", "of", "off", "on", "once", "only", "or", "other", "our", "ours",
   "ourselves", "out", "over", "own", "quite", "re", "s", "said", "same", "shan",
   "she", "should", "shouldn",
   "so", "some", "such", "t", "than", "that", "the", "their", "theirs",
   "them", "themselves", "then", "there", "these", "they", "this", "those",
   "through", "to", "too", "under", "until", "up", "upon", "ve", "very", "was",
   "wasn", "we", "were", "weren", "what", "when", "where",
   "which", "while", "who", "whom", "why", "will", "with", "won",
   "would", "wouldn", "y", "you",
   "your", "yours", "yourself", "yourselves",
   "also", "based", "et", "al", "using", "via", "vs", "use", "used", "show",
   "shows", "shown", "propose", "proposed", "paper", "approach", "method",
   "results", "model", "models", "work", "study", "new", "novel", "present",
   "presented", "demonstrate", "demonstrated", "provide", "provided",
   "however", "therefore", "thus", "hence", "although", "moreover",
   "furthermore", "additionally", "specifically", "respectively"]

/-- The `^\\d+$` pure-number test. -/
def isPureNumber (t : List Char) : Bool :=
  !t.isEmpty && t.all (fun c => '0' ≤ c && c ≤ '9')

/-- `tokenize`: lowercase, replace characters outside `[a-z0-9\\s-]` with a
space, split on whitespace, trim edge hyphens, drop one-character tokens,
stopwords and pure numbers. -/
def tokenize (text : String) : List String :=
  if text = "" then []
  else
    ((((text.toList.map Char.toLower).map
        (fun c => if isKeptChar c then c else ' ')).splitOnP isWsChar).map
      (fun t => String.mk (trimHyphens t))).filter
      (fun t => t.length > 1 && !(STOPWORDS.contains t) && !(isPureNumber t.toList))

/-- `Map.set(k, get(k) + 1)` on a count map: bump in place or append. -/
def bumpCount (m : List (String × Nat)) (t : String) : List (String × Nat) :=
  if m.any (fun e => decide (e.1 = t)) then
    m.map (fun e => if e.1 = t then (e.1, e.2 + 1) else e)
  else m ++ [(t, 1)]

/-- Term frequency of a token stream, in first-occurrence order. -/
def termFreq (tokens : List String) : List (String × Nat) :=
  tokens.foldl bumpCount []

/-- `Math.max(...tf.values())`; every stored count is positive, so folding
from `0` yields the same value as the spread form on a non-empty map. -/
def maxTfOf (tf : List (String × Nat)) : Nat :=
  (tf.map Prod.snd).foldl max 0

/-- Augmented term frequency: each count divided by the document maximum. -/
def normalizeTf (tf : List (String × Nat)) : List (String × Rat) :=
  tf.map (fun e => (e.1, (e.2 : Rat) / (maxTfOf tf : Rat)))

/-- `new Set(tokens)` in insertion order. -/
def distinctTokens (tokens : List String) : List String :=
  tokens.foldl (fun acc t => if t ∈ acc then acc else acc ++ [t]) []

/-- `Map.set` on an association list: replace in place or append. -/
def setAssoc {β : Type} (m : List (String × β)) (k : String) (v : β) :
    List (String × β) :=
  if m.any (fun e => decide (e.1 = k)) then
    m.map (fun e => if e.1 = k then (k, v) else e)
  else m ++ [(k, v)]

/-- The document id: `paper.source_id || String(paper.paper_id)` (an empty
`source_id` is falsy; a missing `paper_id` stringifies to `undefined`). -/
def docId (pid : Option Nat) (p : Paper) : String :=
  if p.source_id ≠ "" then p.source_id
  else match pid with
    | some n => toString n
    | none => "undefined"

/-- The corpus text of one paper: title plus abstract when the abstract is
truthy, else title plus the JSON-decoded keywords when those parse. -/
def corpusText (parseKeywords : String → Option (List String)) (p : Paper) :
    String :=
  match p.abstract with
  | some a =>
    if a ≠ "" then p.title ++ " " ++ a
    else corpusTextFallback parseKeywords p
  | none => corpusTextFallback parseKeywords p
where
  corpusTextFallback (parseKeywords : String → Option (List String))
      (p : Paper) : String :=
    match p.keywords_json with
    | some k =>
      if k ≠ "" then
        match parseKeywords k with
        | some kws => p.title ++ " " ++ (String.intercalate (" ") kws)
        | none => p.title
      else p.title
    | none => p.title

/-- TF-IDF corpus: document vectors, document-frequency table, size. -/
structure TfIdfCorpus where
  documents : List (String × Vec)
  df : List (String × Nat)
  size : Nat

/-- One iteration of the per-paper loop of `buildCorpus`: skip the paper
when its token list is empty, otherwise store its augmented term
frequencies and bump the document frequency of each distinct term. -/
def buildCorpusStep (parseKeywords : String → Option (List String))
    (acc : List (String × List (String × Rat)) × List (String × Nat))
    (pp : Option Nat × Paper) :
    List (String × List (String × Rat)) × List (String × Nat) :=
  let tokens := tokenize (corpusText parseKeywords pp.2)
  if tokens = [] then acc
  else
    (setAssoc acc.1 (docId pp.1 pp.2) (normalizeTf (termFreq tokens)),
     (distinctTokens tokens).foldl bumpCount acc.2)

/-- `buildCorpus`: run the per-paper loop, then replace every stored
term weight `tf` with `tf * ln(N / df[term])`. -/
noncomputable def buildCorpus (parseKeywords : String → Option (List String))
    (papers : List (Option Nat × Paper)) : TfIdfCorpus :=
  let acc := papers.foldl (buildCorpusStep parseKeywords) ([], [])
  let N := acc.1.length
  ⟨acc.1.map (fun d => (d.1, d.2.map (fun q =>
      (q.1, (q.2 : Real) *
        Real.log ((N : Real) / (((acc.2.lookup q.1).getD 1 : Nat) : Real)))))),
   acc.2, N⟩

/-- Keys of an association list after a fst-preserving map. -/
theorem keys_map_preserve {β γ : Type} (m : List (String × β))
    (f : String × β → String × γ) (hf : ∀ e, (f e).1 = e.1) :
    (m.map f).map Prod.fst = m.map Prod.fst := by
  rw [List.map_map]
  exact List.map_congr_left (fun e _ => hf e)

theorem bumpCount_keysNodup (m : List (String × Nat)) (t : String)
    (h : (m.map Prod.fst).Nodup) : ((bumpCount m t).map Prod.fst).Nodup := by
  by_cases hany : m.any (fun e => decide (e.1 = t)) = true
  · simp only [bumpCount, if_pos hany]
    rw [keys_map_preserve m _ (fun e => by by_cases he : e.1 = t <;> simp [he])]
    exact h
  · simp only [bumpCount, if_neg hany]
    rw [List.map_append]
    refine List.Nodup.append h (List.nodup_singleton t) ?_
    intro x hx hx'
    rw [List.mem_singleton.mp hx'] at hx
    obtain ⟨e, he, he1⟩ := List.mem_map.mp hx
    exact hany (List.any_eq_true.mpr ⟨e, he, decide_eq_true he1⟩)

theorem foldl_bumpCount_keysNodup (tokens : List String) :
    ∀ m : List (String × Nat), (m.map Prod.fst).Nodup →
      ((tokens.foldl bumpCount m).map Prod.fst).Nodup := by
  induction tokens with
  | nil => intro m hm; exact hm
  | cons t ts ih =>
    intro m hm
    exact ih (bumpCount m t) (bumpCount_keysNodup m t hm)

theorem termFreq_keysNodup (tokens : List String) :
    ((termFreq tokens).map Prod.fst).Nodup :=
  foldl_bumpCount_keysNodup tokens [] List.nodup_nil

theorem keys_map_pair {β γ : Type} (g : String × β → γ) (m : List (String × β)) :
    (m.map (fun e => (e.1, g e))).map Prod.fst = m.map Prod.fst := by
  rw [List.map_map]
  exact List.map_congr_left (fun e _ => rfl)

theorem normalizeTf_keysNodup (tf : List (String × Nat))
    (h : (tf.map Prod.fst).Nodup) :
    ((normalizeTf tf).map Prod.fst).Nodup := by
  unfold normalizeTf
  rw [keys_map_pair]
  exact h

/-- Membership in `setAssoc`: either an untouched original entry or an
entry carrying the new value. -/
theorem mem_setAssoc {β : Type} (m : List (String × β)) (k : String) (v : β)
    (d : String × β) (hd : d ∈ setAssoc m k v) : d ∈ m ∨ d.2 = v := by
  by_cases hany : m.any (fun e => decide (e.1 = k)) = true
  · simp only [setAssoc, if_pos hany] at hd
    obtain ⟨e, he, hde⟩ := List.mem_map.mp hd
    by_cases hek : e.1 = k
    · right
      rw [if_pos hek] at hde
      rw [← hde]
    · left
      rw [if_neg hek] at hde
      rw [← hde]
      exact he
  · simp only [setAssoc, if_neg hany] at hd
    rcases List.mem_append.mp hd with hm | hm
    · exact Or.inl hm
    · right
      rw [List.mem_singleton.mp hm]

/-- Every document stored while folding `buildCorpusStep` carries a
duplicate-free term map. -/
theorem buildCorpusStep_fold_nodup (pk : String → Option (List String))
    (papers : List (Option Nat × Paper)) :
    ∀ acc, (∀ d ∈ acc.1, (d.2.map Prod.fst).Nodup) →
      ∀ d ∈ (papers.foldl (buildCorpusStep pk) acc).1,
        (d.2.map Prod.fst).Nodup := by
  induction papers with
  | nil => intro acc hacc d hd; exact hacc d hd
  | cons pp ps ih =>
    intro acc hacc
    refine ih (buildCorpusStep pk acc pp) ?_
    intro d hd
    by_cases htok : tokenize (corpusText pk pp.2) = []
    · simp only [buildCorpusStep, if_pos htok] at hd
      exact hacc d hd
    · simp only [buildCorpusStep, if_neg htok] at hd
      rcases mem_setAssoc _ _ _ d hd with hm | hv
      · exact hacc d hm
      · rw [hv]
        exact normalizeTf_keysNodup _ (termFreq_keysNodup _)

theorem buildCorpus_documents_nodup (pk : String → Option (List String))
    (papers : List (Option Nat × Paper)) :
    ∀ d ∈ (buildCorpus pk papers).documents, vecNodup d.2 := by
  intro d hd
  simp only [buildCorpus] at hd
  obtain ⟨e, he, hde⟩ := List.mem_map.mp hd
  have hnd : (e.2.map Prod.fst).Nodup :=
    buildCorpusStep_fold_nodup pk papers ([], []) (by intro d hd; simp at hd) e he
  rw [← hde]
  show ((e.2.map _).map Prod.fst).Nodup
  rw [keys_map_pair]
  exact hnd

theorem dotList_self (v : Vec) (h : vecNodup v) : dotList v v = normSq v := by
  rw [dotList_eq_sum_map, normSq_eq_sum_map]
  refine congrArg List.sum (List.map_congr_left ?_)
  intro p hp
  rw [dotTerm_eq, wt, lookup_of_mem_nodup v h p hp]
  simp

theorem normSq_nonneg (v : Vec) : 0 ≤ normSq v := by
  rw [normSq_eq_sum_map]
  refine List.sum_nonneg ?_
  intro x hx
  obtain ⟨q, _, hq⟩ := List.mem_map.mp hx
  rw [← hq]
  exact mul_self_nonneg q.2

theorem normSq_pos (v : Vec) (h : ∃ p ∈ v, p.2 ≠ 0) : 0 < normSq v := by
  obtain ⟨p, hp, hne⟩ := h
  have hle : p.2 * p.2 ≤ normSq v := by
    rw [normSq_eq_sum_map]
    refine List.single_le_sum ?_ _ (List.mem_map_of_mem (fun q => q.2 * q.2) hp)
    intro x hx
    obtain ⟨q, _, hq⟩ := List.mem_map.mp hx
    rw [← hq]
    exact mul_self_nonneg q.2
  exact lt_of_lt_of_le (mul_self_pos.mpr hne) hle

/-- Self-similarity for a duplicate-free vector with at least one nonzero
weight. -/
theorem cosineSimilarity_self (v : Vec) (hnd : vecNodup v)
    (hw : ∃ p ∈ v, p.2 ≠ 0) : cosineSimilarity v v = 1 := by
  have hpos : 0 < normSq v := normSq_pos v hw
  have hlen : ¬ (v.length = 0 ∨ v.length = 0) := by
    obtain ⟨p, hp, _⟩ := hw
    intro hc
    have h0 : v.length = 0 := hc.elim id id
    rw [List.length_eq_zero.mp h0] at hp
    exact absurd hp (List.not_mem_nil p)
  simp only [cosineSimilarity, if_neg hlen, if_pos (le_refl v.length)]
  have hd : Real.sqrt (normSq v) * Real.sqrt (normSq v) = normSq v :=
    Real.mul_self_sqrt hpos.le
  simp only [hd, dotList_self v hnd]
  rw [if_neg hpos.ne']
  exact div_self hpos.ne'

/-- C7 amended: self-similarity holds exactly for corpus document vectors
with at least one nonzero weight. -/
theorem c7_cosine_self_amended (pk : String → Option (List String))
    (papers : List (Option Nat × Paper)) :
    ∀ d ∈ (buildCorpus pk papers).documents,
      (∃ p ∈ d.2, p.2 ≠ 0) → cosineSimilarity d.2 d.2 = 1 := by
  intro d hd hw
  exact cosineSimilarity_self d.2 (buildCorpus_documents_nodup pk papers d hd) hw

/-- The single-term paper of the C7 counterexample. -/
def cexPaper : Paper :=
  ⟨"openalex", "P1", none, none, "alpha", none,
    none, none, none, 0, none, none, none⟩

/-- A second single-term paper, used for the C7 witness corpus. -/
def cexPaper2 : Paper :=
  ⟨"openalex", "P2", none, none, "beta", none,
    none, none, none, 0, none, none, none⟩

theorem cex_step : buildCorpusStep (fun _ => none) ([], [])
    ((some 1 : Option Nat), cexPaper) =
    ([("P1", [("alpha", (1 : Rat))])], [("alpha", 1)]) := by
  have h1 : tokenize (corpusText (fun _ => none) cexPaper) = ["alpha"] := by decide
  have h2 : docId (some 1) cexPaper = "P1" := by decide
  norm_num [buildCorpusStep, h1, h2, setAssoc, termFreq, bumpCount, normalizeTf,
    maxTfOf, distinctTokens]

theorem cex_docs : (buildCorpus (fun _ => none) [(some 1, cexPaper)]).documents
    = [("P1", [("alpha", (0 : Real))])] := by
  have hfold : ([((some 1 : Option Nat), cexPaper)].foldl
      (buildCorpusStep (fun _ => none)) ([], [])) =
      ([("P1", [("alpha", (1 : Rat))])], [("alpha", 1)]) := by
    simp only [List.foldl]
    exact cex_step
  simp only [buildCorpus, hfold]
  norm_num [List.lookup, Real.log_one]

/-- C7 counterexample: in the corpus built from one paper every term
weight is `tf * ln(1/1) = 0`, and the self-similarity of its (unique)
document vector is `0`, not `1.0` — the zero-denominator guard fires. -/
theorem c7_single_doc_counterexample :
    ((buildCorpus (fun _ => none) [(some 1, cexPaper)]).documents.map
      (fun d => cosineSimilarity d.2 d.2)) = [0] := by
  rw [cex_docs]
  simp only [List.map_cons, List.map_nil]
  norm_num [cosineSimilarity, dotList, normSq, List.foldl, List.lookup, Real.sqrt_zero]

theorem cex_step2 : buildCorpusStep (fun _ => none)
    ([("P1", [("alpha", (1 : Rat))])], [("alpha", 1)])
    ((some 2 : Option Nat), cexPaper2) =
    ([("P1", [("alpha", (1 : Rat))]), ("P2", [("beta", (1 : Rat))])],
     [("alpha", 1), ("beta", 1)]) := by
  have h1 : tokenize (corpusText (fun _ => none) cexPaper2) = ["beta"] := by decide
  have h2 : docId (some 2) cexPaper2 = "P2" := by decide
  norm_num [buildCorpusStep, h1, h2, setAssoc, termFreq, bumpCount, normalizeTf,
    maxTfOf, distinctTokens]
  exact ⟨by decide, by decide⟩

theorem cex_docs2 :
    (buildCorpus (fun _ => none) [(some 1, cexPaper), (some 2, cexPaper2)]).documents
    = [("P1", [("alpha", Real.log 2)]), ("P2", [("beta", Real.log 2)])] := by
  have hfold : ([((some 1 : Option Nat), cexPaper),
      ((some 2 : Option Nat), cexPaper2)].foldl
      (buildCorpusStep (fun _ => none)) ([], [])) =
      ([("P1", [("alpha", (1 : Rat))]), ("P2", [("beta", (1 : Rat))])],
       [("alpha", 1), ("beta", 1)]) := by
    simp only [List.foldl]
    rw [cex_step]
    exact cex_step2
  simp only [buildCorpus, hfold]
  have hba : ("beta" == "alpha") = false := by decide
  norm_num [List.lookup, hba]

/-- Witness for C7 amended: a two-document corpus has a document vector
with a nonzero weight, and its self-similarity is 1. -/
theorem c7_cosine_self_amended_witness :
    (("P1", [("alpha", Real.log 2)]) ∈
      (buildCorpus (fun _ => none)
        [(some 1, cexPaper), (some 2, cexPaper2)]).documents) ∧
    (∃ p ∈ [("alpha", Real.log 2)], p.2 ≠ 0) ∧
    cosineSimilarity [("alpha", Real.log 2)] [("alpha", Real.log 2)] = 1 := by
  have hmem : ("P1", [("alpha", Real.log 2)]) ∈
      (buildCorpus (fun _ => none)
        [(some 1, cexPaper), (some 2, cexPaper2)]).documents := by
    rw [cex_docs2]
    simp
  have hnz : ∃ p ∈ [("alpha", Real.log 2)], p.2 ≠ 0 :=
    ⟨("alpha", Real.log 2), by simp, (Real.log_pos (by norm_num)).ne'⟩
  exact ⟨hmem, hnz,
    c7_cosine_self_amended (fun _ => none) [(some 1, cexPaper), (some 2, cexPaper2)]
      ("P1", [("alpha", Real.log 2)]) hmem hnz⟩

/-! ## Section 6: edge producers

Embeds the `Edge` record (`src/types/edge.ts`), `computeCoCitation` and
`computeBibCoupling` from `src/graph/algorithms.ts`, and
`buildSimilarityEdges` / `findTopKSimilar` from `src/nlp/similarity.ts`.
Modelling notes: the string pair keys built by the source
(`min-max` for co-citation pairs, the same for the similarity seen-set)
are an injective encoding of a pair of naturals and are modelled as the
pair itself; `provenance_json`, `rationale`, `evidence` and `created_by`
are constants irrelevant to every claim and are omitted from the record;
`JSON.stringify` is a platform builtin. -/

inductive EdgeType where
  | CITES | CITED_BY | CO_CITED | BIB_COUPLED | SIMILAR_TEXT
  | SHARED_KEYWORDS | SAME_AUTHOR | SAME_VENUE
  | EXTENDS | IMPROVES | SURVEYS | CONTRADICTS
  | USES_METHOD | INTRODUCES_METHOD | USES_DATASET | INTRODUCES_DATASET
deriving DecidableEq, Repr

structure Edge where
  src_paper_id : Nat
  dst_paper_id : Nat
  type : EdgeType
  weight : Real
  confidence : Real

/-- The unordered pair key of an edge. -/
def ukey (e : Edge) : Nat × Nat :=
  (min e.src_paper_id e.dst_paper_id, max e.src_paper_id e.dst_paper_id)

/-- Generic `Map.set(k, f(get(k)))`-or-initialize on an association list. -/
def updateOrAppend {κ β : Type} [DecidableEq κ] (m : List (κ × β)) (k : κ)
    (f : β → β) (init : β) : List (κ × β) :=
  if m.any (fun e => decide (e.1 = k)) then
    m.map (fun e => if e.1 = k then (e.1, f e.2) else e)
  else m ++ [(k, init)]

/-- `citingToRefs.get(src).add(dst)` with `Set` semantics (dedup, insertion
order). -/
def addToRefSet (m : List (Nat × List Nat)) (k v : Nat) : List (Nat × List Nat) :=
  updateOrAppend m k (fun s => if v ∈ s then s else s ++ [v]) [v]

/-- The per-citer reference-set map built from the CITES edges. -/
def buildRefsMap (edges : List Edge) : List (Nat × List Nat) :=
  (edges.filter (fun e => decide (e.type = EdgeType.CITES))).foldl
    (fun m e => addToRefSet m e.src_paper_id e.dst_paper_id) []

/-- `pairCounts.set(key, get + 1)` keyed by the `(min, max)` pair. -/
def bumpPair (pc : List ((Nat × Nat) × Nat)) (k : Nat × Nat) :
    List ((Nat × Nat) × Nat) :=
  updateOrAppend pc k (fun c => c + 1) 1

/-- The `i < j` double loop over one array, in loop order. -/
def pairsOf {α : Type} : List α → List (α × α)
  | [] => []
  | x :: xs => (xs.map (fun y => (x, y))) ++ pairsOf xs

/-- The co-citation pair counting loop. -/
def coCitePairCounts (edges : List Edge) : List ((Nat × Nat) × Nat) :=
  (buildRefsMap edges).foldl
    (fun pc kr => (pairsOf kr.2).foldl
      (fun pc2 ab => bumpPair pc2 (min ab.1 ab.2, max ab.1 ab.2)) pc) []

/-- `computeCoCitation`: one CO_CITED edge per counted pair with weight
`count / max(1, max count)`. -/
noncomputable def computeCoCitation (edges : List Edge) : List Edge :=
  let pairCounts := coCitePairCounts edges
  let maxCount : Nat := pairCounts.foldl (fun m q => max m q.2) 1
  pairCounts.map (fun q =>
    ⟨q.1.1, q.1.2, EdgeType.CO_CITED, (q.2 : Real) / (maxCount : Real), 1⟩)

/-- The body of the bibliographic-coupling pair loop: skip empty reference
sets and zero overlaps, else emit the edge from `papers[i]` to
`papers[j]`. -/
noncomputable def couplingEdgeOf (pq : (Nat × List Nat) × (Nat × List Nat)) :
    Option Edge :=
  if pq.1.2.length = 0 then none
  else if pq.2.2.length = 0 then none
  else
    let overlap := (pq.1.2.filter (fun r => decide (r ∈ pq.2.2))).length
    if overlap = 0 then none
    else some ⟨pq.1.1, pq.2.1, EdgeType.BIB_COUPLED,
      (overlap : Real) / ((min pq.1.2.length pq.2.2.length : Nat) : Real), 1⟩

/-- `computeBibCoupling`: for every `i < j` pair of citing papers with
non-empty reference sets and positive overlap, one BIB_COUPLED edge from
`papers[i]` to `papers[j]` with weight `overlap / min(sizes)`. -/
noncomputable def computeBibCoupling (edges : List Edge) : List Edge :=
  (pairsOf (buildRefsMap edges)).filterMap couplingEdgeOf

/-- `findTopKSimilar`: cosine against every other document, keep pairs at
or above the threshold in corpus order, sort by similarity descending
(stable, as JS sort), take the top `k`. -/
noncomputable def findTopKSimilar (docId0 : String) (corpus : TfIdfCorpus)
    (k : Nat) (threshold : Real) : List (String × Real) :=
  match corpus.documents.lookup docId0 with
  | none => []
  | some docVector =>
    ((corpus.documents.foldl (fun acc other =>
        if other.1 = docId0 then acc
        else
          if cosineSimilarity docVector other.2 ≥ threshold then
            acc ++ [(other.1, cosineSimilarity docVector other.2)]
          else acc) []).insertionSort (fun a b => b.2 ≤ a.2)).take k

/-- The body of the neighbour loop of `buildSimilarityEdges`: skip
neighbours missing from the id map and pairs already in the seen set, else
push the SIMILAR_TEXT edge and record the pair key. -/
noncomputable def simStep (paperIdMap : List (String × Nat)) (srcId : Nat)
    (acc2 : List Edge × List (Nat × Nat)) (nb : String × Real) :
    List Edge × List (Nat × Nat) :=
  match paperIdMap.lookup nb.1 with
  | none => acc2
  | some nid =>
    if (min srcId nid, max srcId nid) ∈ acc2.2 then acc2
    else (acc2.1 ++ [⟨srcId, nid, EdgeType.SIMILAR_TEXT, nb.2, nb.2⟩],
          acc2.2 ++ [(min srcId nid, max srcId nid)])

/-- `buildSimilarityEdges`: for each paper of the id map, link to its
top-K neighbours, deduplicating unordered pairs with the seen-pair set. -/
noncomputable def buildSimilarityEdges (paperIdMap : List (String × Nat))
    (corpus : TfIdfCorpus) (topK : Nat) (threshold : Real) : List Edge :=
  (paperIdMap.foldl (fun (acc : List Edge × List (Nat × Nat)) sp =>
    (findTopKSimilar sp.1 corpus topK threshold).foldl
      (simStep paperIdMap sp.2) acc)
    ([], [])).1

theorem foldl_invariant_mem {σ α : Type} (f : σ → α → σ) (P : σ → Prop) :
    ∀ (l : List α), (∀ a ∈ l, ∀ s, P s → P (f s a)) → ∀ s, P s → P (l.foldl f s) := by
  intro l
  induction l with
  | nil => intro _ s hs; exact hs
  | cons x xs ih =>
    intro hstep s hs
    exact ih (fun a ha s' hs' => hstep a (List.mem_cons_of_mem x ha) s' hs')
      (f s x) (hstep x (List.mem_cons_self x xs) s hs)

theorem keysA_map_preserve {κ β γ : Type} (m : List (κ × β))
    (f : κ × β → κ × γ) (hf : ∀ e, (f e).1 = e.1) :
    (m.map f).map Prod.fst = m.map Prod.fst := by
  rw [List.map_map]
  exact List.map_congr_left (fun e _ => hf e)

theorem updateOrAppend_keysNodup {κ β : Type} [DecidableEq κ]
    (m : List (κ × β)) (k : κ) (f : β → β) (init : β)
    (h : (m.map Prod.fst).Nodup) :
    ((updateOrAppend m k f init).map Prod.fst).Nodup := by
  by_cases hany : m.any (fun e => decide (e.1 = k)) = true
  · simp only [updateOrAppend, if_pos hany]
    rw [keysA_map_preserve m _ (fun e => by by_cases he : e.1 = k <;> simp [he])]
    exact h
  · simp only [updateOrAppend, if_neg hany]
    rw [List.map_append]
    refine List.Nodup.append h (List.nodup_singleton k) ?_
    intro x hx hx'
    rw [List.mem_singleton.mp hx'] at hx
    obtain ⟨e, he, he1⟩ := List.mem_map.mp hx
    exact hany (List.any_eq_true.mpr ⟨e, he, decide_eq_true he1⟩)

theorem updateOrAppend_valueP {κ β : Type} [DecidableEq κ] (P : β → Prop)
    (m : List (κ × β)) (k : κ) (f : β → β) (init : β)
    (hm : ∀ e ∈ m, P e.2) (hf : ∀ b, P b → P (f b)) (hi : P init) :
    ∀ e ∈ updateOrAppend m k f init, P e.2 := by
  intro e he
  by_cases hany : m.any (fun e => decide (e.1 = k)) = true
  · simp only [updateOrAppend, if_pos hany] at he
    obtain ⟨e0, he0, heq⟩ := List.mem_map.mp he
    by_cases hk : e0.1 = k
    · rw [if_pos hk] at heq
      rw [← heq]
      exact hf e0.2 (hm e0 he0)
    · rw [if_neg hk] at heq
      rw [← heq]
      exact hm e0 he0
  · simp only [updateOrAppend, if_neg hany] at he
    rcases List.mem_append.mp he with hm' | hm'
    · exact hm e hm'
    · rw [List.mem_singleton.mp hm']
      exact hi

theorem updateOrAppend_keyP {κ β : Type} [DecidableEq κ] (Q : κ → Prop)
    (m : List (κ × β)) (k : κ) (f : β → β) (init : β)
    (hm : ∀ e ∈ m, Q e.1) (hk : Q k) :
    ∀ e ∈ updateOrAppend m k f init, Q e.1 := by
  intro e he
  by_cases hany : m.any (fun e => decide (e.1 = k)) = true
  · simp only [updateOrAppend, if_pos hany] at he
    obtain ⟨e0, he0, heq⟩ := List.mem_map.mp he
    by_cases hke : e0.1 = k
    · rw [if_pos hke] at heq
      rw [← heq]
      exact hke ▸ hk
    · rw [if_neg hke] at heq
      rw [← heq]
      exact hm e0 he0
  · simp only [updateOrAppend, if_neg hany] at he
    rcases List.mem_append.mp he with hm' | hm'
    · exact hm e hm'
    · rw [List.mem_singleton.mp hm']
      exact hk

theorem buildRefsMap_keysNodup (edges : List Edge) :
    ((buildRefsMap edges).map Prod.fst).Nodup := by
  unfold buildRefsMap
  exact foldl_invariant_mem _
    (fun (m : List (Nat × List Nat)) => (m.map Prod.fst).Nodup) _
    (fun (e : Edge) _ m hm => updateOrAppend_keysNodup m e.src_paper_id _ _ hm)
    [] List.nodup_nil

theorem buildRefsMap_refsNodup (edges : List Edge) :
    ∀ e ∈ buildRefsMap edges, e.2.Nodup := by
  unfold buildRefsMap
  refine foldl_invariant_mem _
    (fun (m : List (Nat × List Nat)) => ∀ e ∈ m, e.2.Nodup) _
    (fun (a : Edge) _ m hm => ?_) [] (fun e he => absurd he (List.not_mem_nil e))
  refine updateOrAppend_valueP _ m a.src_paper_id _ _ hm (fun b hb => ?_)
    (List.nodup_singleton a.dst_paper_id)
  by_cases hv : a.dst_paper_id ∈ b
  · simpa [hv] using hb
  · simp only [if_neg hv]
    refine List.Nodup.append hb (List.nodup_singleton _) ?_
    intro x hx hx'
    rw [List.mem_singleton.mp hx'] at hx
    exact hv hx

theorem pairsOf_pairwise {α : Type} (R : α → α → Prop) :
    ∀ (l : List α), l.Pairwise R → ∀ p ∈ pairsOf l, R p.1 p.2 := by
  intro l
  induction l with
  | nil => intro _ p hp; simp [pairsOf] at hp
  | cons x xs ih =>
    intro hpw p hp
    rw [List.pairwise_cons] at hpw
    simp only [pairsOf, List.mem_append] at hp
    rcases hp with hp | hp
    · obtain ⟨y, hy, hpy⟩ := List.mem_map.mp hp
      rw [← hpy]
      exact hpw.1 y hy
    · exact ih hpw.2 p hp

theorem pairsOf_mem_both {α : Type} :
    ∀ (l : List α), ∀ p ∈ pairsOf l, p.1 ∈ l ∧ p.2 ∈ l := by
  intro l
  induction l with
  | nil => intro p hp; simp [pairsOf] at hp
  | cons x xs ih =>
    intro p hp
    simp only [pairsOf, List.mem_append] at hp
    rcases hp with hp | hp
    · obtain ⟨y, hy, hpy⟩ := List.mem_map.mp hp
      rw [← hpy]
      exact ⟨List.mem_cons_self x xs, List.mem_cons_of_mem x hy⟩
    · obtain ⟨h1, h2⟩ := ih p hp
      exact ⟨List.mem_cons_of_mem x h1, List.mem_cons_of_mem x h2⟩

/-- The minimum and maximum of an unordered pair identify its members. -/
theorem minmax_mem (a b c d : Nat) (hmin : min a b = min c d)
    (hmax : max a b = max c d) : a = c ∨ a = d := by
  rcases min_choice a b with h | h
  · have ha : a = min c d := h.symm.trans hmin
    rcases min_choice c d with h' | h'
    · exact Or.inl (ha.trans h')
    · exact Or.inr (ha.trans h')
  · rcases max_choice a b with h2 | h2
    · have ha : a = max c d := h2.symm.trans hmax
      rcases max_choice c d with h' | h'
      · exact Or.inl (ha.trans h')
      · exact Or.inr (ha.trans h')
    · have hba : b ≤ a := min_eq_right_iff.mp h
      have hab : a ≤ b := max_eq_right_iff.mp h2
      have hEq : a = b := le_antisymm hab hba
      subst hEq
      rw [min_self] at hmin
      rcases min_choice c d with h' | h'
      · exact Or.inl (hmin.trans h')
      · exact Or.inr (hmin.trans h')

theorem pairsOf_ukeys_nodup :
    ∀ (l : List (Nat × List Nat)), (l.map Prod.fst).Nodup →
      ((pairsOf l).map
        (fun p => (min p.1.1 p.2.1, max p.1.1 p.2.1))).Nodup := by
  intro l
  induction l with
  | nil => intro _; simp [pairsOf]
  | cons x xs ih =>
    intro hnd
    rw [List.map_cons, List.nodup_cons] at hnd
    obtain ⟨hx1, hnd2⟩ := hnd
    simp only [pairsOf, List.map_append, List.map_map]
    refine List.Nodup.append ?_ (ih hnd2) ?_
    · refine List.Nodup.map_on ?_ (List.Nodup.of_map Prod.fst hnd2)
      intro y1 hy1 y2 hy2 heq
      simp only [Function.comp, Prod.mk.injEq] at heq
      have hy1x : y1.1 ≠ x.1 := by
        intro hc
        exact hx1 (hc ▸ List.mem_map_of_mem Prod.fst hy1)
      have hmin : min y1.1 x.1 = min y2.1 x.1 := by
        rw [min_comm y1.1 x.1, min_comm y2.1 x.1]
        exact heq.1
      have hmax : max y1.1 x.1 = max y2.1 x.1 := by
        rw [max_comm y1.1 x.1, max_comm y2.1 x.1]
        exact heq.2
      rcases minmax_mem y1.1 x.1 y2.1 x.1 hmin hmax with h | h
      · exact List.inj_on_of_nodup_map hnd2 hy1 hy2 h
      · exact absurd h hy1x
    · intro z hz1 hz2
      obtain ⟨y, hy, hzy⟩ := List.mem_map.mp hz1
      obtain ⟨p, hp, hzp⟩ := List.mem_map.mp hz2
      have heq : (min x.1 y.1, max x.1 y.1) =
          (min p.1.1 p.2.1, max p.1.1 p.2.1) := by
        simp only [Function.comp] at hzy
        rw [hzy, ← hzp]
      rw [Prod.mk.injEq] at heq
      have hmem := pairsOf_mem_both xs p hp
      rcases minmax_mem x.1 y.1 p.1.1 p.2.1 heq.1 heq.2 with h | h
      · exact hx1 (h ▸ List.mem_map_of_mem Prod.fst hmem.1)
      · exact hx1 (h ▸ List.mem_map_of_mem Prod.fst hmem.2)

theorem coCitePairCounts_inv (edges : List Edge) :
    ((coCitePairCounts edges).map Prod.fst).Nodup ∧
    ∀ q ∈ coCitePairCounts edges, q.1.1 < q.1.2 := by
  unfold coCitePairCounts
  refine foldl_invariant_mem _
    (fun (pc : List ((Nat × Nat) × Nat)) =>
      (pc.map Prod.fst).Nodup ∧ ∀ q ∈ pc, q.1.1 < q.1.2)
    _ (fun (kr : Nat × List Nat) hkr pc hpc => ?_) []
    ⟨List.nodup_nil, fun q hq => absurd hq (List.not_mem_nil q)⟩
  have hrefs : kr.2.Nodup := buildRefsMap_refsNodup edges kr hkr
  refine foldl_invariant_mem _ _ _
    (fun (ab : Nat × Nat) hab pc2 hpc2 => ?_) pc hpc
  have hne : ab.1 ≠ ab.2 :=
    pairsOf_pairwise (fun a b => a ≠ b) kr.2 hrefs ab hab
  unfold bumpPair
  exact ⟨updateOrAppend_keysNodup pc2 _ _ _ hpc2.1,
    updateOrAppend_keyP (fun (k : Nat × Nat) => k.1 < k.2) pc2
      (min ab.1 ab.2, max ab.1 ab.2) (fun c => c + 1) 1 hpc2.2
      (min_lt_max.mpr hne)⟩

theorem filterMap_map_sublist {α β γ : Type} (f : α → Option β) (g : β → γ)
    (h : α → γ) (hcomp : ∀ a b, f a = some b → g b = h a) :
    ∀ l : List α, ((l.filterMap f).map g).Sublist (l.map h) := by
  intro l
  induction l with
  | nil => simp
  | cons x xs ih =>
    cases hf : f x with
    | none =>
      simp only [List.filterMap_cons, hf, List.map_cons]
      exact ih.cons (h x)
    | some b =>
      simp only [List.filterMap_cons, hf, List.map_cons, hcomp x b hf]
      exact ih.cons₂ (h x)

theorem couplingEdgeOf_shape (pq : (Nat × List Nat) × (Nat × List Nat))
    (e : Edge) (h : couplingEdgeOf pq = some e) :
    e.src_paper_id = pq.1.1 ∧ e.dst_paper_id = pq.2.1 := by
  simp only [couplingEdgeOf] at h
  split_ifs at h
  have := Option.some.inj h
  rw [← this]
  exact ⟨rfl, rfl⟩

theorem simStep_preserves (paperIdMap : List (String × Nat)) (srcId : Nat)
    (nb : String × Real) (acc2 : List Edge × List (Nat × Nat))
    (hP : acc2.2 = acc2.1.map ukey ∧ acc2.2.Nodup) :
    (simStep paperIdMap srcId acc2 nb).2 =
      (simStep paperIdMap srcId acc2 nb).1.map ukey ∧
    (simStep paperIdMap srcId acc2 nb).2.Nodup := by
  unfold simStep
  cases hlk : paperIdMap.lookup nb.1 with
  | none => exact hP
  | some nid =>
    by_cases hmem : (min srcId nid, max srcId nid) ∈ acc2.2
    · simp only [if_pos hmem]
      exact hP
    · simp only [if_neg hmem]
      constructor
      · simp only [List.map_append, hP.1]
        rfl
      · refine List.Nodup.append hP.2 (List.nodup_singleton _) ?_
        intro z hz hz'
        rw [List.mem_singleton.mp hz'] at hz
        exact hmem hz

theorem buildSimilarityEdges_ukeys_nodup (paperIdMap : List (String × Nat))
    (corpus : TfIdfCorpus) (topK : Nat) (threshold : Real) :
    ((buildSimilarityEdges paperIdMap corpus topK threshold).map ukey).Nodup := by
  unfold buildSimilarityEdges
  have hinv := foldl_invariant_mem
    (fun acc sp => (findTopKSimilar sp.1 corpus topK threshold).foldl
      (simStep paperIdMap sp.2) acc)
    (fun (acc : List Edge × List (Nat × Nat)) =>
      acc.2 = acc.1.map ukey ∧ acc.2.Nodup)
    paperIdMap
    (fun sp _ acc hacc => foldl_invariant_mem _ _ _
      (fun nb _ acc2 hacc2 => simStep_preserves paperIdMap sp.2 nb acc2 hacc2)
      acc hacc)
    ([], []) ⟨rfl, List.nodup_nil⟩
  rw [← hinv.1]
  exact hinv.2

/-- C1 amended: CO_CITED edges are emitted with `src < dst`, while
BIB_COUPLED and SIMILAR_TEXT edges only guarantee that each unordered
pair of papers appears in at most one emitted edge (for BIB_COUPLED the
two endpoints are moreover distinct citing papers); their `src` may
exceed their `dst`. -/
theorem c1_edge_pair_invariants :
    (∀ es : List Edge, ∀ e ∈ computeCoCitation es,
      e.src_paper_id < e.dst_paper_id) ∧
    (∀ es : List Edge, ((computeCoCitation es).map ukey).Nodup) ∧
    (∀ es : List Edge, ∀ e ∈ computeBibCoupling es,
      e.src_paper_id ≠ e.dst_paper_id) ∧
    (∀ es : List Edge, ((computeBibCoupling es).map ukey).Nodup) ∧
    (∀ (paperIdMap : List (String × Nat)) (corpus : TfIdfCorpus)
      (topK : Nat) (threshold : Real),
      ((buildSimilarityEdges paperIdMap corpus topK threshold).map ukey).Nodup) := by
  refine ⟨?_, ?_, ?_, ?_, buildSimilarityEdges_ukeys_nodup⟩
  · intro es e he
    simp only [computeCoCitation] at he
    obtain ⟨q, hq, hqe⟩ := List.mem_map.mp he
    have := (coCitePairCounts_inv es).2 q hq
    rw [← hqe]
    exact this
  · intro es
    have hmap : (computeCoCitation es).map ukey =
        (coCitePairCounts es).map Prod.fst := by
      simp only [computeCoCitation]
      rw [List.map_map]
      refine List.map_congr_left (fun q hq => ?_)
      have hlt := (coCitePairCounts_inv es).2 q hq
      show (min q.1.1 q.1.2, max q.1.1 q.1.2) = q.1
      rw [min_eq_left hlt.le, max_eq_right hlt.le]
    rw [hmap]
    exact (coCitePairCounts_inv es).1
  · intro es e he
    simp only [computeBibCoupling] at he
    obtain ⟨pq, hpq, hfe⟩ := List.mem_filterMap.mp he
    obtain ⟨h1, h2⟩ := couplingEdgeOf_shape pq e hfe
    rw [h1, h2]
    refine pairsOf_pairwise (fun u v => u.1 ≠ v.1) (buildRefsMap es) ?_ pq hpq
    exact (List.pairwise_map.mp (buildRefsMap_keysNodup es))
  · intro es
    refine List.Nodup.sublist ?_ (pairsOf_ukeys_nodup (buildRefsMap es)
      (buildRefsMap_keysNodup es))
    simp only [computeBibCoupling]
    refine filterMap_map_sublist couplingEdgeOf ukey _ ?_ _
    intro pq e hfe
    obtain ⟨h1, h2⟩ := couplingEdgeOf_shape pq e hfe
    simp only [ukey, h1, h2]

/-- A CITES edge literal for the C1 counterexample and witness. -/
def cexCites (a b : Nat) : Edge := ⟨a, b, EdgeType.CITES, 1, 1⟩

/-- C1 counterexample: with CITES edges 5→1, 5→2, 3→1, 3→2 the single
BIB_COUPLED edge runs from paper 5 to paper 3 — `src > dst`, because the
pair order follows the first-seen order of citing papers, not the id
order. -/
theorem c1_src_lt_dst_counterexample :
    (computeBibCoupling [cexCites 5 1, cexCites 5 2, cexCites 3 1,
        cexCites 3 2]).map (fun e => (e.src_paper_id, e.dst_paper_id)) =
      [(5, 3)] ∧ ¬ (5 < 3) :=
  ⟨rfl, by decide⟩

/-- The CO_CITED edge emitted for the witness input. -/
noncomputable def c1wEdge : Edge :=
  ⟨1, 2, EdgeType.CO_CITED, ((1 : Nat) : Real) / ((1 : Nat) : Real), 1⟩

/-- Witness for C1 amended: a concrete CO_CITED edge satisfies the
membership hypothesis and has `src < dst`. -/
theorem c1_edge_pair_invariants_witness :
    (c1wEdge ∈ computeCoCitation [cexCites 7 1, cexCites 7 2]) ∧
    c1wEdge.src_paper_id < c1wEdge.dst_paper_id := by
  have hq : ((1, 2), 1) ∈ coCitePairCounts [cexCites 7 1, cexCites 7 2] := by
    decide
  have hmax : (coCitePairCounts [cexCites 7 1, cexCites 7 2]).foldl
      (fun m q => max m q.2) 1 = 1 := by decide
  have hmem : c1wEdge ∈ computeCoCitation [cexCites 7 1, cexCites 7 2] := by
    simp only [computeCoCitation, hmax]
    exact List.mem_map.mpr ⟨((1, 2), 1), hq, rfl⟩
  exact ⟨hmem, c1_edge_pair_invariants.1 _ c1wEdge hmem⟩

/-! ## Section 7: composite scoring

Embeds `computeRelevance` (TF-IDF module) and `computeCompositeScores`
(`src/graph/scoring.ts`).  `new Date().getFullYear()` becomes the
parameter `cy`.  When no paper has an effective year above 1900, the JS
`Math.min()` of an empty spread is `Infinity` and every recency is
`-Infinity`; the model returns `none` for that degenerate case.  The
result `Map` is modelled as the per-paper list of `(paper_id, score)`
pairs (paper ids are unique in the store, so `Map.set` never
overwrites). -/

/-- `computeRelevance`: sum of the query-token weights of the document
vector, normalized by query length and clamped to 1. -/
noncomputable def computeRelevance (corpus : TfIdfCorpus) (docId0 : String)
    (queryTokens : List String) : Real :=
  match corpus.documents.lookup docId0 with
  | none => 0
  | some docVector =>
    if queryTokens = [] then 0
    else
      min 1 ((queryTokens.foldl
        (fun acc token => acc + ((docVector.lookup token).getD 0)) 0) /
        (queryTokens.length : Real))

/-- The effective years above 1900 (null years count as the current
year). -/
def effYears (papers : List (Option Nat × Paper)) (cy : Int) : List Int :=
  (papers.map (fun pp => pp.2.year.getD cy)).filter (fun y => decide (1900 < y))

/-- `computeCompositeScores`. -/
noncomputable def computeCompositeScores (papers : List (Option Nat × Paper))
    (pagerankScores : List (Nat × Real)) (corpus : TfIdfCorpus)
    (topic : String) (wp wr wy : Real) (cy : Int) :
    Option (List (Nat × Real)) :=
  match (effYears papers cy).min? with
  | none => none
  | some oldestYear =>
    let yearRange : Int := max 1 (cy - oldestYear)
    let queryTokens := if topic = "" then [] else tokenize topic
    let maxPagerank : Real :=
      pagerankScores.foldl (fun m x => max m x.2) (1 / 1000)
    some (papers.filterMap (fun pp =>
      match pp.1 with
      | none => none
      | some pid =>
        let pr := ((pagerankScores.lookup pid).getD 0) / maxPagerank
        let sourceId := if pp.2.source_id ≠ "" then pp.2.source_id
          else toString pid
        let relevance := if queryTokens.length > 0 then
            computeRelevance corpus sourceId queryTokens else 0
        let recency := if yearRange > 0 then
            (((pp.2.year.getD cy - oldestYear : Int) : Real) / (yearRange : Real))
          else 1 / 2
        some (pid, min 1 (pr * wp + relevance * wr + recency * wy))))

theorem lookup_mem {κ β : Type} [BEq κ] :
    ∀ (l : List (κ × β)) (k : κ) (v : β), l.lookup k = some v →
      ∃ k2, (k2, v) ∈ l := by
  intro l
  induction l with
  | nil => intro k v h; simp [List.lookup] at h
  | cons x xs ih =>
    intro k v h
    simp only [List.lookup] at h
    cases hk : k == x.1 with
    | true =>
      rw [hk] at h
      refine ⟨x.1, ?_⟩
      have : x.2 = v := Option.some.inj (by simpa using h)
      rw [← this]
      exact List.mem_cons_self x xs
    | false =>
      rw [hk] at h
      obtain ⟨k2, hk2⟩ := ih k v h
      exact ⟨k2, List.mem_cons_of_mem x hk2⟩

theorem le_foldl_max (l : List (Nat × Real)) :
    ∀ init : Real, init ≤ l.foldl (fun m x => max m x.2) init := by
  induction l with
  | nil => intro init; exact le_refl init
  | cons x xs ih =>
    intro init
    exact le_trans (le_max_left init x.2) (ih (max init x.2))

theorem computeRelevance_nonneg (corpus : TfIdfCorpus) (docId0 : String)
    (queryTokens : List String)
    (hcorp : ∀ d ∈ corpus.documents, ∀ p ∈ d.2, 0 ≤ p.2) :
    0 ≤ computeRelevance corpus docId0 queryTokens := by
  unfold computeRelevance
  cases hlk : corpus.documents.lookup docId0 with
  | none => exact le_refl 0
  | some docVector =>
    by_cases hq : queryTokens = []
    · simp [hq]
    · simp only [if_neg hq]
      refine le_min (by norm_num) ?_
      refine div_nonneg ?_ (by positivity)
      have hvec : ∀ p ∈ docVector, 0 ≤ p.2 := by
        obtain ⟨k2, hk2⟩ := lookup_mem corpus.documents docId0 docVector hlk
        exact hcorp (k2, docVector) hk2
      have hterm : ∀ t : String, 0 ≤ ((docVector.lookup t).getD 0 : Real) := by
        intro t
        cases hl : docVector.lookup t with
        | none => exact le_refl 0
        | some w =>
          obtain ⟨k2, hk2⟩ := lookup_mem docVector t w hl
          simpa using hvec (k2, w) hk2
      rw [foldl_add_eq_sum (fun token => ((docVector.lookup token).getD 0 : Real))
        queryTokens 0, zero_add]
      refine List.sum_nonneg ?_
      intro x hx
      obtain ⟨t, _, ht⟩ := List.mem_map.mp hx
      rw [← ht]
      exact hterm t

/-- C6 amended: whenever some paper has an effective year above 1900 (so
the minimum is defined), every composite score is at most 1; and if in
addition the weights are non-negative, the PageRank scores and corpus
weights are non-negative, and every paper's effective year is at least
the filtered minimum, then every composite score is also non-negative.
Papers with a year at most 1900 alongside a younger corpus violate the
lower bound (see the counterexample). -/
theorem c6_composite_score_bounds (papers : List (Option Nat × Paper))
    (pagerankScores : List (Nat × Real)) (corpus : TfIdfCorpus)
    (topic : String) (wp wr wy : Real) (cy : Int) (oy : Int)
    (hmin : (effYears papers cy).min? = some oy)
    (hwp : 0 ≤ wp) (hwr : 0 ≤ wr) (hwy : 0 ≤ wy) (hsum : wp + wr + wy = 1)
    (hpr : ∀ q ∈ pagerankScores, 0 ≤ q.2)
    (hcorp : ∀ d ∈ corpus.documents, ∀ p ∈ d.2, 0 ≤ p.2)
    (hyears : ∀ pp ∈ papers, oy ≤ pp.2.year.getD cy) :
    ∃ l, computeCompositeScores papers pagerankScores corpus topic
        wp wr wy cy = some l ∧
      ∀ q ∈ l, 0 ≤ q.2 ∧ q.2 ≤ 1 := by
  refine ⟨_, by rw [computeCompositeScores, hmin], ?_⟩
  intro q hq
  obtain ⟨pp, hpp, hfq⟩ := List.mem_filterMap.mp hq
  cases hpid : pp.1 with
  | none => rw [hpid] at hfq; exact absurd hfq (by simp)
  | some pid =>
    rw [hpid] at hfq
    simp only [Option.some.injEq] at hfq
    have hmaxpr : (0 : Real) < pagerankScores.foldl
        (fun m x => max m x.2) (1 / 1000) :=
      lt_of_lt_of_le (by norm_num) (le_foldl_max pagerankScores (1 / 1000))
    have hprv : 0 ≤ ((pagerankScores.lookup pid).getD 0 : Real) := by
      cases hl : pagerankScores.lookup pid with
      | none => exact le_refl 0
      | some v =>
        obtain ⟨k2, hk2⟩ := lookup_mem pagerankScores pid v hl
        simpa using hpr (k2, v) hk2
    have hprnn : 0 ≤ ((pagerankScores.lookup pid).getD 0) /
        pagerankScores.foldl (fun m x => max m x.2) (1 / 1000) :=
      div_nonneg hprv hmaxpr.le
    have hrel : 0 ≤ (if (if topic = "" then [] else tokenize topic).length > 0
        then computeRelevance corpus
          (if pp.2.source_id ≠ "" then pp.2.source_id else toString pid)
          (if topic = "" then [] else tokenize topic) else 0) := by
      split_ifs <;> first
        | exact computeRelevance_nonneg corpus _ _ hcorp
        | exact le_refl (0 : Real)
    have hrec : 0 ≤ (if max 1 (cy - oy) > 0 then
        (((pp.2.year.getD cy - oy : Int) : Real) / ((max 1 (cy - oy) : Int) : Real))
        else 1 / 2) := by
      split_ifs with h
      · refine div_nonneg ?_ ?_
        · have := hyears pp hpp
          have hge : (0 : Int) ≤ pp.2.year.getD cy - oy := by omega
          exact_mod_cast hge
        · exact_mod_cast h.le
      · norm_num
    rw [← hfq]
    constructor
    · refine le_min (by norm_num) ?_
      have h1 := mul_nonneg hprnn hwp
      have h2 := mul_nonneg hrel hwr
      have h3 := mul_nonneg hrec hwy
      positivity
    · exact min_le_left 1 _

/-- A minimal paper with a publication year, for the C6 scenarios. -/
def yearPaper (sid : String) (y : Int) : Paper :=
  ⟨"openalex", sid, none, none, "t", none, some y, none, none, 0, none,
    none, none⟩

/-- C6 counterexample: with papers of years 2000 and 1800 (current year
2026, default weights, no topic, no PageRank scores), the 1800 paper gets
recency `(1800 - 2000) / 26` and composite score `-20/13 < 0`. -/
theorem c6_negative_score_counterexample :
    (computeCompositeScores [(some 1, yearPaper ("A") 2000),
        (some 2, yearPaper ("B") 1800)] [] ⟨[], [], 0⟩ ("")
        (1 / 2) (3 / 10) (1 / 5) 2026).map (fun l => l.lookup 2) =
      some (some (-20 / 13 : Real)) ∧ ((-20 / 13 : Real) < 0) := by
  constructor
  · have hmin : (effYears [((some 1 : Option Nat), yearPaper ("A") 2000),
        ((some 2 : Option Nat), yearPaper ("B") 1800)] 2026).min? =
        some 2000 := by decide
    simp only [computeCompositeScores, hmin]
    norm_num [List.filterMap, List.lookup, yearPaper, tokenize, min_def]
    rfl
  · norm_num

/-- Witness for C6 amended at a concrete single-paper input. -/
theorem c6_composite_score_bounds_witness :
    ((effYears [((some 1 : Option Nat), yearPaper ("A") 2000)] 2026).min? =
      some 2000) ∧
    ∃ l, computeCompositeScores [(some 1, yearPaper ("A") 2000)] []
        ⟨[], [], 0⟩ ("") (1 / 2) (3 / 10) (1 / 5) 2026 = some l ∧
      ∀ q ∈ l, 0 ≤ q.2 ∧ q.2 ≤ 1 :=
  ⟨by decide,
    c6_composite_score_bounds [(some 1, yearPaper ("A") 2000)] [] ⟨[], [], 0⟩
      ("") (1 / 2) (3 / 10) (1 / 5) 2026 2000 (by decide)
      (by norm_num) (by norm_num) (by norm_num) (by norm_num)
      (fun q hq => absurd hq (List.not_mem_nil q))
      (fun d hd => absurd hd (List.not_mem_nil d))
      (by
        intro pp hpp
        rw [List.mem_singleton.mp hpp]
        decide)⟩

/-! ## Section 8: the build orchestrator

Embeds `findSeeds`, `traverseCitations` and the paper/run bookkeeping of
`buildGraph` from `src/builder/graph-builder.ts`, over the store of
Section 2.  The source adapter is a record of pure functions (the model of
one fixed set of remote responses).  `visited` / `edgeSeen` sets and the
`source:source_id` string keys become lists of pairs.  Steps 3-7 of
`buildGraph` (corpus, similarity and analytic edges, PageRank, Louvain,
clusters, score updates) call only `insertEdges`, `insertClusters` and
`updatePaperScore`, never inserting papers or runs, and are omitted: the
model covers the `papers` table, the traversal CITES edges, and the `runs`
row count.  `Math.floor(maxPapers * 0.4)` equals `2 * maxPapers / 5` in
natural division for every magnitude where the clamp is not already
saturated. -/

structure Store where
  papers : List PaperRow
  nextId : Nat
  edges : List Edge
  runs : Nat

/-- A fresh SQLite store: rowids start at 1. -/
def emptyStore : Store := ⟨[], 1, [], 0⟩

/-- `SELECT * FROM papers WHERE source = ? AND source_id = ?` (first
row). -/
def getPaperBySourceId (st : Store) (source sid : String) : Option PaperRow :=
  st.papers.find? (fun r => decide (r.data.source = source ∧ r.data.source_id = sid))

def getPaperCount (st : Store) : Nat := st.papers.length

/-- One row of the `insertPapers` transaction (INSERT OR IGNORE): a fresh
row gets the next rowid; a row colliding on `(source, source_id)`
contributes the existing row id. -/
def insertStep (acc : List Nat × Store) (p : Paper) : List Nat × Store :=
  match getPaperBySourceId acc.2 p.source p.source_id with
  | some r => (acc.1 ++ [r.paper_id], acc.2)
  | none => (acc.1 ++ [acc.2.nextId],
      { acc.2 with papers := acc.2.papers ++ [⟨acc.2.nextId, p⟩],
                   nextId := acc.2.nextId + 1 })

/-- `insertPapers`: the whole transaction, returning the ids in input
order. -/
def insertPapers (st : Store) (ps : List Paper) : List Nat × Store :=
  ps.foldl insertStep ([], st)

def insertEdge (st : Store) (e : Edge) : Store :=
  { st with edges := st.edges ++ [e] }

def insertRun (st : Store) : Store := { st with runs := st.runs + 1 }

/-- The adapter interface, as one fixed set of remote responses. -/
structure SourceAdapter where
  searchByTopic : String → Nat → List Paper
  searchByTitle : String → Nat → List Paper
  fetchPaper : String → Option Paper
  fetchReferences : String → Nat → List Paper

structure PaperGraphConfig where
  topic : Option String
  paper : List String
  doi : List String
  source : String
  spine : String
  depth : Nat
  maxPapers : Nat
  maxRefsPerPaper : Nat
  out : String

/-- `Math.max(10, Math.min(Math.floor(config.maxPapers * 0.4), 200))`. -/
def seedLimit (maxPapers : Nat) : Nat :=
  max 10 (min (maxPapers * 2 / 5) 200)

/-- `addUnique` applied along the list: keep the first occurrence of each
`(source, source_id)` key. -/
def dedupByKey (ps : List Paper) : List Paper :=
  (ps.foldl (fun (acc : List Paper × List (String × String)) p =>
    if (p.source, p.source_id) ∈ acc.2 then acc
    else (acc.1 ++ [p], acc.2 ++ [(p.source, p.source_id)])) ([], [])).1

/-- `findSeeds`: topic search, then top-1 title searches, then DOI
fetches, deduplicated in order and truncated to the seed limit. -/
def findSeeds (adapter : SourceAdapter) (config : PaperGraphConfig) :
    List Paper :=
  let lim := seedLimit config.maxPapers
  let fromTopic := match config.topic with
    | some t => if t ≠ "" then adapter.searchByTopic t lim else []
    | none => []
  let fromTitles := config.paper.foldl (fun acc title =>
      match adapter.searchByTitle title 5 with
      | [] => acc
      | r :: _ => acc ++ [r]) []
  let fromDois := config.doi.foldl (fun acc d =>
      match adapter.fetchPaper d with
      | some p => acc ++ [p]
      | none => acc) []
  (dedupByKey (fromTopic ++ fromTitles ++ fromDois)).take lim

/-- The traversal state: the store plus the `visited` and `edgeSeen`
sets. -/
structure TravState where
  store : Store
  visited : List (String × String)
  edgeSeen : List (Nat × Nat)

/-- Processing one reference of the frontier paper with internal id
`srcPid`: emit an edge to a known paper (deduplicated), or insert the
paper and emit the edge while below capacity, or skip. -/
def refStep (maxPapers : Nat) (atCapacity : Bool) (srcPid : Nat)
    (acc : TravState × List (Nat × Paper)) (ref : Paper) :
    TravState × List (Nat × Paper) :=
  let ts := acc.1
  match getPaperBySourceId ts.store ref.source ref.source_id with
  | some existing =>
    if (srcPid, existing.paper_id) ∈ ts.edgeSeen then acc
    else
      (⟨insertEdge ts.store ⟨srcPid, existing.paper_id, EdgeType.CITES, 1, 1⟩,
        ts.visited, ts.edgeSeen ++ [(srcPid, existing.paper_id)]⟩, acc.2)
  | none =>
    if (ref.source, ref.source_id) ∉ ts.visited ∧ atCapacity = false ∧
        getPaperCount ts.store < maxPapers then
      let refId := ts.store.nextId
      let store1 : Store := { ts.store with
        papers := ts.store.papers ++ [⟨refId, ref⟩], nextId := refId + 1 }
      if (srcPid, refId) ∈ ts.edgeSeen then
        (⟨store1, ts.visited ++ [(ref.source, ref.source_id)], ts.edgeSeen⟩,
         acc.2 ++ [(refId, ref)])
      else
        (⟨insertEdge store1 ⟨srcPid, refId, EdgeType.CITES, 1, 1⟩,
          ts.visited ++ [(ref.source, ref.source_id)],
          ts.edgeSeen ++ [(srcPid, refId)]⟩,
         acc.2 ++ [(refId, ref)])
    else acc

/-- Processing one frontier paper: skip papers without an internal id,
else fold `refStep` over its fetched references. -/
def processPaper (adapter : SourceAdapter) (cfg : PaperGraphConfig)
    (atCapacity : Bool) (acc : TravState × List (Nat × Paper))
    (pp : Option Nat × Paper) : TravState × List (Nat × Paper) :=
  match pp.1 with
  | none => acc
  | some pid =>
    (adapter.fetchReferences pp.2.source_id cfg.maxRefsPerPaper).foldl
      (refStep cfg.maxPapers atCapacity pid) acc

/-- The depth loop of `traverseCitations`, with the early break on an
empty next frontier. -/
def traverseLoop (adapter : SourceAdapter) (cfg : PaperGraphConfig) :
    Nat → List (Option Nat × Paper) → TravState → TravState
  | 0, _, ts => ts
  | d + 1, frontier, ts =>
    let atCapacity := decide (getPaperCount ts.store ≥ cfg.maxPapers)
    let step := frontier.foldl (processPaper adapter cfg atCapacity) (ts, [])
    if step.2 = [] then step.1
    else traverseLoop adapter cfg d
      (step.2.map (fun q => ((some q.1 : Option Nat), q.2))) step.1

/-- `traverseCitations`: seed the visited set, run the depth loop. -/
def traverseCitations (adapter : SourceAdapter) (st : Store)
    (seeds : List (Option Nat × Paper)) (cfg : PaperGraphConfig) : Store :=
  (traverseLoop adapter cfg cfg.depth seeds
    ⟨st, seeds.map (fun sp => (sp.2.source, sp.2.source_id)), []⟩).store

/-- Write the assigned ids back into the in-memory seed records. -/
def assignIds (seeds : List Paper) (ids : List Nat) :
    List (Option Nat × Paper) :=
  (seeds.zip ids).map (fun q => ((some q.2 : Option Nat), q.1))

/-- The paper- and run-table behaviour of `buildGraph`: find seeds (return
early when none), insert them, traverse citations, record the run row. -/
def buildGraph (cfg : PaperGraphConfig) (adapter : SourceAdapter) :
    Store × String :=
  let db := emptyStore
  let seeds := findSeeds adapter cfg
  if seeds = [] then (db, cfg.out)
  else
    let inserted := insertPapers db seeds
    let db2 := traverseCitations adapter inserted.2
      (assignIds seeds inserted.1) cfg
    (insertRun db2, cfg.out)

/-- An adapter with no remote results at all. -/
def emptyAdapter : SourceAdapter :=
  ⟨fun _ _ => [], fun _ _ => [], fun _ => none, fun _ _ => []⟩

/-- A build configuration with only a topic. -/
def cfgTopicOnly : PaperGraphConfig :=
  ⟨some ("quantum"), [], [], "openalex", "citation", 2, 100, 40, "g.db"⟩

/-- C4 amended: with an empty final seed set, `buildGraph` returns the
output path without recording a run — the store is left untouched (no run
row, no papers). -/
theorem c4_empty_seed_amended (cfg : PaperGraphConfig)
    (adapter : SourceAdapter) (h : findSeeds adapter cfg = []) :
    (buildGraph cfg adapter).2 = cfg.out ∧
    (buildGraph cfg adapter).1.runs = 0 ∧
    (buildGraph cfg adapter).1.papers = [] := by
  simp [buildGraph, h, emptyStore]

/-- C4 counterexample: on an adapter returning no seeds, the run count
after the build is 0, not one more than before the build. -/
theorem c4_no_run_recorded_counterexample :
    (buildGraph cfgTopicOnly emptyAdapter).1.runs = 0 ∧
    ¬ ((buildGraph cfgTopicOnly emptyAdapter).1.runs = emptyStore.runs + 1) := by
  decide

/-- Witness for C4 amended at the concrete empty adapter. -/
theorem c4_empty_seed_amended_witness :
    (findSeeds emptyAdapter cfgTopicOnly = []) ∧
    ((buildGraph cfgTopicOnly emptyAdapter).2 = cfgTopicOnly.out ∧
     (buildGraph cfgTopicOnly emptyAdapter).1.runs = 0 ∧
     (buildGraph cfgTopicOnly emptyAdapter).1.papers = []) :=
  ⟨by decide, c4_empty_seed_amended cfgTopicOnly emptyAdapter (by decide)⟩

/-- A seed paper with the given source id. -/
def seedPaper (sid : String) : Paper :=
  ⟨"openalex", sid, none, none, "t", none, none, none, none, 0, none,
    none, none⟩

/-- An adapter whose topic search returns six distinct papers. -/
def sixSeedAdapter : SourceAdapter :=
  ⟨fun _ _ => [seedPaper ("s1"), seedPaper ("s2"), seedPaper ("s3"),
    seedPaper ("s4"), seedPaper ("s5"), seedPaper ("s6")],
   fun _ _ => [], fun _ => none, fun _ _ => []⟩

/-- A configuration with `max_papers = 5`. -/
def cfgMax5 : PaperGraphConfig :=
  ⟨some ("t"), [], [], "openalex", "citation", 1, 5, 40, "o.db"⟩

/-- C3 counterexample: with `max_papers = 5` the seed limit clamps up to
10, six topic results are all inserted, and the build ends with 6 > 5
papers. -/
theorem c3_cap_exceeded_counterexample :
    (buildGraph cfgMax5 sixSeedAdapter).1.papers.length = 6 ∧
    cfgMax5.maxPapers = 5 ∧ ¬ ((6 : Nat) ≤ 5) := by
  decide

/-- The paper whose reference list contains itself. -/
def selfRefPaper : Paper :=
  ⟨"openalex", "A", none, none, "t", none, none, none, none, 0, none,
    none, none⟩

/-- An adapter whose single seed lists itself among its references. -/
def selfRefAdapter : SourceAdapter :=
  ⟨fun _ _ => [selfRefPaper], fun _ _ => [], fun _ => none,
   fun _ _ => [selfRefPaper]⟩

/-- A configuration for the self-reference scenario. -/
def cfgSelfRef : PaperGraphConfig :=
  ⟨some ("t"), [], [], "openalex", "citation", 1, 10, 40, "o.db"⟩

/-- C2 counterexample: when a paper's reference list contains the paper
itself, traversal persists the CITES edge `(1, 1)` with equal endpoints —
there is no self-citation guard. -/
theorem c2_self_citation_counterexample :
    ((buildGraph cfgSelfRef selfRefAdapter).1.edges.map
      (fun e => (e.src_paper_id, e.dst_paper_id, e.type))) =
      [(1, 1, EdgeType.CITES)] := by
  rfl

theorem insertStep_found (acc : List Nat × Store) (p : Paper) (r : PaperRow)
    (h : getPaperBySourceId acc.2 p.source p.source_id = some r) :
    insertStep acc p = (acc.1 ++ [r.paper_id], acc.2) := by
  unfold insertStep
  rw [h]

theorem insertStep_notfound (acc : List Nat × Store) (p : Paper)
    (h : getPaperBySourceId acc.2 p.source p.source_id = none) :
    insertStep acc p = (acc.1 ++ [acc.2.nextId],
      { acc.2 with papers := acc.2.papers ++ [⟨acc.2.nextId, p⟩],
                   nextId := acc.2.nextId + 1 }) := by
  unfold insertStep
  rw [h]

theorem insertPapers_shift (ps : List Paper) :
    ∀ (ids0 : List Nat) (st : Store),
      ps.foldl insertStep (ids0, st) =
        (ids0 ++ (insertPapers st ps).1, (insertPapers st ps).2) := by
  induction ps with
  | nil => intro ids0 st; simp [insertPapers]
  | cons p ps ih =>
    intro ids0 st
    rw [List.foldl_cons]
    show ps.foldl insertStep (insertStep (ids0, st) p) = _
    have hrhs : insertPapers st (p :: ps) =
        ps.foldl insertStep (insertStep ([], st) p) := by
      rw [insertPapers, List.foldl_cons]
    cases hf : getPaperBySourceId st p.source p.source_id with
    | some r =>
      rw [insertStep_found (ids0, st) p r hf, ih (ids0 ++ [r.paper_id]) st,
        hrhs, insertStep_found ([], st) p r hf, List.nil_append]
      have := ih [r.paper_id] st
      rw [this, Prod.mk.injEq]
      exact ⟨by rw [List.append_assoc], rfl⟩
    | none =>
      rw [insertStep_notfound (ids0, st) p hf, ih (ids0 ++ [st.nextId]) _,
        hrhs, insertStep_notfound ([], st) p hf, List.nil_append]
      have := ih [st.nextId]
        { st with papers := st.papers ++ [⟨st.nextId, p⟩],
                  nextId := st.nextId + 1 }
      rw [this, Prod.mk.injEq]
      exact ⟨by rw [List.append_assoc], rfl⟩

theorem insertPapers_cons_found (st : Store) (p : Paper) (ps : List Paper)
    (r : PaperRow) (h : getPaperBySourceId st p.source p.source_id = some r) :
    insertPapers st (p :: ps) =
      (r.paper_id :: (insertPapers st ps).1, (insertPapers st ps).2) := by
  rw [insertPapers, List.foldl_cons, insertStep_found ([], st) p r h,
    List.nil_append, insertPapers_shift ps [r.paper_id] st]
  rfl

theorem insertPapers_cons_notfound (st : Store) (p : Paper) (ps : List Paper)
    (h : getPaperBySourceId st p.source p.source_id = none) :
    insertPapers st (p :: ps) =
      (st.nextId :: (insertPapers { st with
          papers := st.papers ++ [⟨st.nextId, p⟩],
          nextId := st.nextId + 1 } ps).1,
       (insertPapers { st with
          papers := st.papers ++ [⟨st.nextId, p⟩],
          nextId := st.nextId + 1 } ps).2) := by
  rw [insertPapers, List.foldl_cons, insertStep_notfound ([], st) p h,
    List.nil_append, insertPapers_shift ps [st.nextId] _]
  rfl

theorem insertPapers_length (ps : List Paper) :
    ∀ st : Store,
      (insertPapers st ps).2.papers.length ≤ st.papers.length + ps.length := by
  induction ps with
  | nil => intro st; simp [insertPapers]
  | cons p ps ih =>
    intro st
    cases hf : getPaperBySourceId st p.source p.source_id with
    | some r =>
      rw [insertPapers_cons_found st p ps r hf]
      calc (insertPapers st ps).2.papers.length
          ≤ st.papers.length + ps.length := ih st
        _ ≤ st.papers.length + (p :: ps).length := by simp
    | none =>
      rw [insertPapers_cons_notfound st p ps hf]
      calc (insertPapers _ ps).2.papers.length
          ≤ (st.papers ++ [(⟨st.nextId, p⟩ : PaperRow)]).length + ps.length :=
            ih _
        _ = st.papers.length + (p :: ps).length := by
            simp [Nat.add_comm, Nat.add_assoc, Nat.add_left_comm]

theorem refStep_found (maxPapers : Nat) (atCapacity : Bool) (srcPid : Nat)
    (acc : TravState × List (Nat × Paper)) (ref : Paper) (existing : PaperRow)
    (h : getPaperBySourceId acc.1.store ref.source ref.source_id =
      some existing) :
    refStep maxPapers atCapacity srcPid acc ref =
      if (srcPid, existing.paper_id) ∈ acc.1.edgeSeen then acc
      else ((⟨insertEdge acc.1.store
          ⟨srcPid, existing.paper_id, EdgeType.CITES, 1, 1⟩,
        acc.1.visited,
        acc.1.edgeSeen ++ [(srcPid, existing.paper_id)]⟩ : TravState),
        acc.2) := by
  simp only [refStep]
  rw [h]

theorem refStep_notfound (maxPapers : Nat) (atCapacity : Bool) (srcPid : Nat)
    (acc : TravState × List (Nat × Paper)) (ref : Paper)
    (h : getPaperBySourceId acc.1.store ref.source ref.source_id = none) :
    refStep maxPapers atCapacity srcPid acc ref =
      if (ref.source, ref.source_id) ∉ acc.1.visited ∧ atCapacity = false ∧
          getPaperCount acc.1.store < maxPapers then
        (if (srcPid, acc.1.store.nextId) ∈ acc.1.edgeSeen then
          ((⟨{ acc.1.store with
              papers := acc.1.store.papers ++ [⟨acc.1.store.nextId, ref⟩],
              nextId := acc.1.store.nextId + 1 },
            acc.1.visited ++ [(ref.source, ref.source_id)],
            acc.1.edgeSeen⟩ : TravState),
           acc.2 ++ [(acc.1.store.nextId, ref)])
        else
          ((⟨insertEdge { acc.1.store with
              papers := acc.1.store.papers ++ [⟨acc.1.store.nextId, ref⟩],
              nextId := acc.1.store.nextId + 1 }
              ⟨srcPid, acc.1.store.nextId, EdgeType.CITES, 1, 1⟩,
            acc.1.visited ++ [(ref.source, ref.source_id)],
            acc.1.edgeSeen ++ [(srcPid, acc.1.store.nextId)]⟩ : TravState),
           acc.2 ++ [(acc.1.store.nextId, ref)]))
      else acc := by
  simp only [refStep]
  rw [h]

theorem refStep_count (maxPapers : Nat) (atCapacity : Bool) (srcPid : Nat)
    (acc : TravState × List (Nat × Paper)) (ref : Paper) (B : Nat)
    (hB : maxPapers ≤ B) (h : getPaperCount acc.1.store ≤ B) :
    getPaperCount (refStep maxPapers atCapacity srcPid acc ref).1.store ≤ B := by
  cases hf : getPaperBySourceId acc.1.store ref.source ref.source_id with
  | some existing =>
    rw [refStep_found maxPapers atCapacity srcPid acc ref existing hf]
    split_ifs
    · exact h
    · simpa [getPaperCount, insertEdge] using h
  | none =>
    rw [refStep_notfound maxPapers atCapacity srcPid acc ref hf]
    split_ifs with h1 h2
    · simpa [getPaperCount] using le_trans h1.2.2 hB
    · simpa [getPaperCount, insertEdge] using le_trans h1.2.2 hB
    · exact h

theorem traverseLoop_count (adapter : SourceAdapter) (cfg : PaperGraphConfig)
    (B : Nat) (hB : cfg.maxPapers ≤ B) :
    ∀ (d : Nat) (frontier : List (Option Nat × Paper)) (ts : TravState),
      getPaperCount ts.store ≤ B →
      getPaperCount (traverseLoop adapter cfg d frontier ts).store ≤ B := by
  intro d
  induction d with
  | zero => intro frontier ts h; exact h
  | succ d ih =>
    intro frontier ts h
    have hstep : ∀ (acc : TravState × List (Nat × Paper)),
        getPaperCount acc.1.store ≤ B →
        ∀ pp ∈ frontier,
          getPaperCount (processPaper adapter cfg
            (decide (getPaperCount ts.store ≥ cfg.maxPapers)) acc pp).1.store
            ≤ B := by
      intro acc hacc pp _
      unfold processPaper
      cases hpid : pp.1 with
      | none => exact hacc
      | some pid =>
        exact foldl_invariant_mem _
          (fun (a : TravState × List (Nat × Paper)) =>
            getPaperCount a.1.store ≤ B) _
          (fun ref _ a ha => refStep_count cfg.maxPapers _ pid a ref B hB ha)
          acc hacc
    have hfold : getPaperCount ((frontier.foldl (processPaper adapter cfg
        (decide (getPaperCount ts.store ≥ cfg.maxPapers))) (ts, [])).1).store
        ≤ B :=
      foldl_invariant_mem _
        (fun (a : TravState × List (Nat × Paper)) =>
          getPaperCount a.1.store ≤ B) frontier
        (fun pp hpp a ha => hstep a ha pp hpp) (ts, []) h
    show getPaperCount (traverseLoop adapter cfg (d + 1) frontier ts).store ≤ B
    simp only [traverseLoop]
    split_ifs with hemp
    · exact hfold
    · exact ih _ _ hfold

/-- C3 amended: the seed set is truncated to
`seed_limit = clamp(floor(0.4 * max_papers), 10, 200)`, BFS inserts only
below `max_papers`, and the build therefore ends with at most
`max(seed_limit, max_papers)` papers — which is at most `max_papers`
whenever `max_papers ≥ 10`, but can exceed it for smaller caps because
the seed limit clamps upward to 10. -/
theorem c3_paper_cap_amended (cfg : PaperGraphConfig)
    (adapter : SourceAdapter) :
    (findSeeds adapter cfg).length ≤ seedLimit cfg.maxPapers ∧
    (buildGraph cfg adapter).1.papers.length ≤
      max (seedLimit cfg.maxPapers) cfg.maxPapers ∧
    (10 ≤ cfg.maxPapers →
      (buildGraph cfg adapter).1.papers.length ≤ cfg.maxPapers) := by
  have hseeds : (findSeeds adapter cfg).length ≤ seedLimit cfg.maxPapers := by
    unfold findSeeds
    exact List.length_take_le _ _
  have hmain : (buildGraph cfg adapter).1.papers.length ≤
      max (seedLimit cfg.maxPapers) cfg.maxPapers := by
    unfold buildGraph
    by_cases hempl : findSeeds adapter cfg = []
    · simp [hempl, emptyStore]
    · simp only [if_neg hempl]
      have h1 : (insertPapers emptyStore (findSeeds adapter cfg)).2.papers.length
          ≤ seedLimit cfg.maxPapers := by
        refine le_trans (insertPapers_length _ emptyStore) ?_
        simpa [emptyStore] using hseeds
      have h2 := traverseLoop_count adapter cfg
        (max (seedLimit cfg.maxPapers) cfg.maxPapers) (le_max_right _ _)
        cfg.depth (assignIds (findSeeds adapter cfg)
          (insertPapers emptyStore (findSeeds adapter cfg)).1)
        ⟨(insertPapers emptyStore (findSeeds adapter cfg)).2,
          (assignIds (findSeeds adapter cfg)
            (insertPapers emptyStore (findSeeds adapter cfg)).1).map
            (fun sp => (sp.2.source, sp.2.source_id)), []⟩
        (le_trans h1 (le_max_left _ _))
      simpa [insertRun, traverseCitations, getPaperCount] using h2
  refine ⟨hseeds, hmain, fun h10 => ?_⟩
  have hsl : seedLimit cfg.maxPapers ≤ cfg.maxPapers := by
    unfold seedLimit
    omega
  calc (buildGraph cfg adapter).1.papers.length
      ≤ max (seedLimit cfg.maxPapers) cfg.maxPapers := hmain
    _ = cfg.maxPapers := max_eq_right hsl

/-- Witness for C3 amended at a concrete configuration with
`max_papers = 100`. -/
theorem c3_paper_cap_amended_witness :
    (10 ≤ cfgTopicOnly.maxPapers) ∧
    (buildGraph cfgTopicOnly emptyAdapter).1.papers.length ≤
      cfgTopicOnly.maxPapers :=
  ⟨by decide,
    (c3_paper_cap_amended cfgTopicOnly emptyAdapter).2.2 (by decide)⟩

/-- Store invariant maintained by the builder: every row id is below the
next rowid, and row ids are distinct. -/
def StInv (st : Store) : Prop :=
  (∀ r ∈ st.papers, r.paper_id < st.nextId) ∧
  (st.papers.map (fun r => r.paper_id)).Nodup

/-- Every persisted edge joins two distinct papers. -/
def edgesOk (st : Store) : Prop :=
  ∀ e ∈ st.edges, e.src_paper_id ≠ e.dst_paper_id

/-- The store holds a row with this id and this paper's natural key. -/
def rowFor (st : Store) (pid : Nat) (p : Paper) : Prop :=
  ∃ r ∈ st.papers, r.paper_id = pid ∧ r.data.source = p.source ∧
    r.data.source_id = p.source_id

/-- The second store's rows extend the first store's rows. -/
def papersExt (st st2 : Store) : Prop :=
  ∃ l, st2.papers = st.papers ++ l

theorem papersExt_refl (st : Store) : papersExt st st :=
  ⟨[], (List.append_nil _).symm⟩

theorem papersExt_trans {s1 s2 s3 : Store} (h : papersExt s1 s2)
    (h2 : papersExt s2 s3) : papersExt s1 s3 := by
  rcases h with ⟨l, hl⟩
  rcases h2 with ⟨m, hm⟩
  exact ⟨l ++ m, by rw [hm, hl, List.append_assoc]⟩

theorem rowFor_mono {s1 s2 : Store} {pid : Nat} {p : Paper}
    (hext : papersExt s1 s2) (h : rowFor s1 pid p) : rowFor s2 pid p := by
  rcases hext with ⟨l, hl⟩
  rcases h with ⟨r, hr, h1, h2, h3⟩
  exact ⟨r, by rw [hl]; exact List.mem_append_left _ hr, h1, h2, h3⟩

theorem StInv_appendRow (st : Store) (p : Paper) (h : StInv st) :
    StInv { st with papers := st.papers ++ [⟨st.nextId, p⟩],
                    nextId := st.nextId + 1 } := by
  constructor
  · intro r hr
    rcases List.mem_append.mp hr with h1 | h1
    · exact Nat.lt_succ_of_lt (h.1 r h1)
    · rw [List.mem_singleton] at h1
      subst h1
      exact Nat.lt_succ_self _
  · show ((st.papers ++ [(⟨st.nextId, p⟩ : PaperRow)]).map
      (fun r => r.paper_id)).Nodup
    rw [List.map_append]
    refine List.nodup_append.mpr ⟨h.2, List.nodup_singleton _, ?_⟩
    intro a ha hb
    rw [List.map_singleton, List.mem_singleton] at hb
    subst hb
    rcases List.mem_map.mp ha with ⟨r, hr, hrid⟩
    exact absurd (hrid ▸ h.1 r hr) (lt_irrefl _)

/-- The natural key of a row found by `getPaperBySourceId` matches the
query. -/
theorem getPaperBySourceId_key {st : Store} {source sid : String}
    {r : PaperRow} (h : getPaperBySourceId st source sid = some r) :
    r ∈ st.papers ∧ r.data.source = source ∧ r.data.source_id = sid := by
  refine ⟨List.mem_of_find?_eq_some h, ?_⟩
  have := List.find?_some h
  exact of_decide_eq_true this

/-- `refStep` preserves the store invariants: distinct row ids, edges with
distinct endpoints (given that the reference cannot share the source id of
the citing paper), extension of the rows, and frontier entries backed by a
row. -/
theorem refStep_preserves_inv (maxPapers : Nat) (atCapacity : Bool)
    (srcPid : Nat) (srcP : Paper) (acc : TravState × List (Nat × Paper))
    (ref : Paper) (hrow : rowFor acc.1.store srcPid srcP)
    (hneq : ref.source_id ≠ srcP.source_id)
    (hinv : StInv acc.1.store) (hedges : edgesOk acc.1.store)
    (hfr : ∀ q ∈ acc.2, rowFor acc.1.store q.1 q.2) :
    StInv (refStep maxPapers atCapacity srcPid acc ref).1.store ∧
    edgesOk (refStep maxPapers atCapacity srcPid acc ref).1.store ∧
    papersExt acc.1.store (refStep maxPapers atCapacity srcPid acc ref).1.store ∧
    (∀ q ∈ (refStep maxPapers atCapacity srcPid acc ref).2,
      rowFor (refStep maxPapers atCapacity srcPid acc ref).1.store q.1 q.2) := by
  cases hf : getPaperBySourceId acc.1.store ref.source ref.source_id with
  | some existing =>
    rw [refStep_found maxPapers atCapacity srcPid acc ref existing hf]
    split_ifs with hseen
    · exact ⟨hinv, hedges, papersExt_refl _, hfr⟩
    · have hext : papersExt acc.1.store
          (insertEdge acc.1.store
            ⟨srcPid, existing.paper_id, EdgeType.CITES, 1, 1⟩) :=
        ⟨[], by simp [insertEdge]⟩
      refine ⟨hinv, ?_, hext, fun q hq => rowFor_mono hext (hfr q hq)⟩
      intro e he
      rcases List.mem_append.mp he with h1 | h1
      · exact hedges e h1
      · rw [List.mem_singleton] at h1
        subst h1
        show srcPid ≠ existing.paper_id
        intro hcontra
        rcases getPaperBySourceId_key hf with ⟨hexmem, _, hexsid⟩
        rcases hrow with ⟨r, hrmem, hrid, _, hrsid⟩
        have hre : r = existing :=
          List.inj_on_of_nodup_map hinv.2 hrmem hexmem
            (by rw [hrid, hcontra])
        exact hneq (by rw [← hexsid, ← hre, hrsid])
  | none =>
    rw [refStep_notfound maxPapers atCapacity srcPid acc ref hf]
    split_ifs with hcond hseen
    · have hext : papersExt acc.1.store
          { acc.1.store with
            papers := acc.1.store.papers ++ [⟨acc.1.store.nextId, ref⟩],
            nextId := acc.1.store.nextId + 1 } :=
        ⟨[⟨acc.1.store.nextId, ref⟩], rfl⟩
      refine ⟨StInv_appendRow acc.1.store ref hinv, hedges, hext, ?_⟩
      intro q hq
      rcases List.mem_append.mp hq with h1 | h1
      · exact rowFor_mono hext (hfr q h1)
      · rw [List.mem_singleton] at h1
        subst h1
        exact ⟨⟨acc.1.store.nextId, ref⟩,
          List.mem_append_right _ (List.mem_singleton_self _), rfl, rfl, rfl⟩
    · have hext : papersExt acc.1.store
          (insertEdge
            { acc.1.store with
              papers := acc.1.store.papers ++ [⟨acc.1.store.nextId, ref⟩],
              nextId := acc.1.store.nextId + 1 }
            ⟨srcPid, acc.1.store.nextId, EdgeType.CITES, 1, 1⟩) :=
        ⟨[⟨acc.1.store.nextId, ref⟩], by simp [insertEdge]⟩
      refine ⟨StInv_appendRow acc.1.store ref hinv, ?_, hext, ?_⟩
      · intro e he
        rcases List.mem_append.mp he with h1 | h1
        · exact hedges e h1
        · rw [List.mem_singleton] at h1
          subst h1
          show srcPid ≠ acc.1.store.nextId
          rcases hrow with ⟨r, hrmem, hrid, _, _⟩
          exact hrid ▸ Nat.ne_of_lt (hinv.1 r hrmem)
      · intro q hq
        rcases List.mem_append.mp hq with h1 | h1
        · exact rowFor_mono hext (hfr q h1)
        · rw [List.mem_singleton] at h1
          subst h1
          exact ⟨⟨acc.1.store.nextId, ref⟩,
            List.mem_append_right _ (List.mem_singleton_self _), rfl, rfl, rfl⟩
    · exact ⟨hinv, hedges, papersExt_refl _, hfr⟩

/-- `processPaper` preserves the same invariants, relative to a base store
`st0` that backs the frontier entry. -/
theorem processPaper_preserves_inv (adapter : SourceAdapter)
    (cfg : PaperGraphConfig) (atCapacity : Bool) (st0 : Store)
    (hrefs : ∀ sid n, ∀ ref ∈ adapter.fetchReferences sid n,
      ref.source_id ≠ sid)
    (pp : Option Nat × Paper)
    (hpp : ∀ pid, pp.1 = some pid → rowFor st0 pid pp.2)
    (acc : TravState × List (Nat × Paper))
    (hacc : StInv acc.1.store ∧ edgesOk acc.1.store ∧
      papersExt st0 acc.1.store ∧
      (∀ q ∈ acc.2, rowFor acc.1.store q.1 q.2)) :
    StInv (processPaper adapter cfg atCapacity acc pp).1.store ∧
    edgesOk (processPaper adapter cfg atCapacity acc pp).1.store ∧
    papersExt st0 (processPaper adapter cfg atCapacity acc pp).1.store ∧
    (∀ q ∈ (processPaper adapter cfg atCapacity acc pp).2,
      rowFor (processPaper adapter cfg atCapacity acc pp).1.store q.1 q.2) := by
  unfold processPaper
  cases hpid : pp.1 with
  | none => exact hacc
  | some pid =>
    refine foldl_invariant_mem _
      (fun (a : TravState × List (Nat × Paper)) =>
        StInv a.1.store ∧ edgesOk a.1.store ∧ papersExt st0 a.1.store ∧
        (∀ q ∈ a.2, rowFor a.1.store q.1 q.2)) _ ?_ acc hacc
    intro ref hm a ha
    have hrow : rowFor a.1.store pid pp.2 :=
      rowFor_mono ha.2.2.1 (hpp pid hpid)
    have hneq : ref.source_id ≠ pp.2.source_id :=
      hrefs pp.2.source_id cfg.maxRefsPerPaper ref hm
    have h := refStep_preserves_inv cfg.maxPapers atCapacity pid pp.2 a ref
      hrow hneq ha.1 ha.2.1 ha.2.2.2
    exact ⟨h.1, h.2.1, papersExt_trans ha.2.2.1 h.2.2.1, h.2.2.2⟩

/-- The depth loop never creates a self-edge: with every reference key
distinct from its citing paper's key, the invariants survive every
depth. -/
theorem traverseLoop_edgesOk (adapter : SourceAdapter)
    (cfg : PaperGraphConfig)
    (hrefs : ∀ sid n, ∀ ref ∈ adapter.fetchReferences sid n,
      ref.source_id ≠ sid) :
    ∀ (d : Nat) (frontier : List (Option Nat × Paper)) (ts : TravState),
      StInv ts.store → edgesOk ts.store →
      (∀ pp ∈ frontier, ∀ pid, pp.1 = some pid → rowFor ts.store pid pp.2) →
      StInv (traverseLoop adapter cfg d frontier ts).store ∧
      edgesOk (traverseLoop adapter cfg d frontier ts).store := by
  intro d
  induction d with
  | zero => intro frontier ts hinv he _; exact ⟨hinv, he⟩
  | succ d ih =>
    intro frontier ts hinv he hfr
    have hstep : StInv ((frontier.foldl (processPaper adapter cfg
        (decide (getPaperCount ts.store ≥ cfg.maxPapers))) (ts, [])).1).store ∧
        edgesOk ((frontier.foldl (processPaper adapter cfg
          (decide (getPaperCount ts.store ≥ cfg.maxPapers))) (ts, [])).1).store ∧
        papersExt ts.store ((frontier.foldl (processPaper adapter cfg
          (decide (getPaperCount ts.store ≥ cfg.maxPapers))) (ts, [])).1).store ∧
        (∀ q ∈ (frontier.foldl (processPaper adapter cfg
            (decide (getPaperCount ts.store ≥ cfg.maxPapers))) (ts, [])).2,
          rowFor ((frontier.foldl (processPaper adapter cfg
            (decide (getPaperCount ts.store ≥ cfg.maxPapers)))
            (ts, [])).1).store q.1 q.2) := by
      refine foldl_invariant_mem _
        (fun (a : TravState × List (Nat × Paper)) =>
          StInv a.1.store ∧ edgesOk a.1.store ∧ papersExt ts.store a.1.store ∧
          (∀ q ∈ a.2, rowFor a.1.store q.1 q.2)) frontier ?_ (ts, [])
        ⟨hinv, he, papersExt_refl _, fun q hq => absurd hq (List.not_mem_nil q)⟩
      intro pp hppm a ha
      exact processPaper_preserves_inv adapter cfg _ ts.store hrefs pp
        (hfr pp hppm) a ha
    show StInv (traverseLoop adapter cfg (d + 1) frontier ts).store ∧
      edgesOk (traverseLoop adapter cfg (d + 1) frontier ts).store
    simp only [traverseLoop]
    split_ifs with hemp
    · exact ⟨hstep.1, hstep.2.1⟩
    · apply ih
      · exact hstep.1
      · exact hstep.2.1
      · intro pp hppm pid hpid
        rcases List.mem_map.mp hppm with ⟨q, hq, hqe⟩
        have hr := hstep.2.2.2 q hq
        subst hqe
        have : q.1 = pid := Option.some.inj hpid
        subst this
        exact hr

theorem insertPapers_papersExt (ps : List Paper) :
    ∀ st : Store, papersExt st (insertPapers st ps).2 := by
  induction ps with
  | nil => intro st; exact papersExt_refl _
  | cons p ps ih =>
    intro st
    cases hf : getPaperBySourceId st p.source p.source_id with
    | some r =>
      rw [insertPapers_cons_found st p ps r hf]
      exact ih st
    | none =>
      rw [insertPapers_cons_notfound st p ps hf]
      exact papersExt_trans
        (⟨[⟨st.nextId, p⟩], rfl⟩ :
          papersExt st { st with papers := st.papers ++ [⟨st.nextId, p⟩],
                                 nextId := st.nextId + 1 })
        (ih _)

theorem insertPapers_StInv (ps : List Paper) :
    ∀ st : Store, StInv st → StInv (insertPapers st ps).2 := by
  induction ps with
  | nil => intro st h; exact h
  | cons p ps ih =>
    intro st h
    cases hf : getPaperBySourceId st p.source p.source_id with
    | some r =>
      rw [insertPapers_cons_found st p ps r hf]
      exact ih st h
    | none =>
      rw [insertPapers_cons_notfound st p ps hf]
      exact ih _ (StInv_appendRow st p h)

theorem insertPapers_edges (ps : List Paper) :
    ∀ st : Store, (insertPapers st ps).2.edges = st.edges := by
  induction ps with
  | nil => intro st; rfl
  | cons p ps ih =>
    intro st
    cases hf : getPaperBySourceId st p.source p.source_id with
    | some r =>
      rw [insertPapers_cons_found st p ps r hf]
      exact ih st
    | none =>
      rw [insertPapers_cons_notfound st p ps hf]
      exact ih _

/-- Every (paper, id) pair produced by the seed transaction is backed by a
row of the resulting store with that id and that paper's key. -/
theorem insertPapers_rowFor (ps : List Paper) :
    ∀ st : Store, ∀ q ∈ ps.zip (insertPapers st ps).1,
      rowFor (insertPapers st ps).2 q.2 q.1 := by
  induction ps with
  | nil => intro st q hq; exact absurd hq (List.not_mem_nil q)
  | cons p ps ih =>
    intro st q hq
    cases hf : getPaperBySourceId st p.source p.source_id with
    | some r =>
      rw [insertPapers_cons_found st p ps r hf] at hq ⊢
      rw [List.zip_cons_cons] at hq
      rcases List.mem_cons.mp hq with h1 | h1
      · subst h1
        rcases getPaperBySourceId_key hf with ⟨hmem, hsrc, hsid⟩
        exact rowFor_mono (insertPapers_papersExt ps st)
          ⟨r, hmem, rfl, hsrc, hsid⟩
      · exact ih st q h1
    | none =>
      rw [insertPapers_cons_notfound st p ps hf] at hq ⊢
      rw [List.zip_cons_cons] at hq
      rcases List.mem_cons.mp hq with h1 | h1
      · subst h1
        refine rowFor_mono (insertPapers_papersExt ps _) ?_
        exact ⟨⟨st.nextId, p⟩,
          List.mem_append_right _ (List.mem_singleton_self _), rfl, rfl, rfl⟩
      · exact ih _ q h1

/-- C2 amended: the builder has no self-citation guard, but as long as the
adapter never lists a paper among its own references (no fetched reference
shares the source id it was fetched for), every persisted edge joins two
distinct internal paper ids — fresh rows get ids above every existing id,
and resolved rows are keyed by `(source, source_id)`, which differs from
the citing paper's key. -/
theorem c2_no_self_citation_amended (cfg : PaperGraphConfig)
    (adapter : SourceAdapter)
    (hrefs : ∀ sid n, ∀ ref ∈ adapter.fetchReferences sid n,
      ref.source_id ≠ sid) :
    ∀ e ∈ (buildGraph cfg adapter).1.edges,
      e.src_paper_id ≠ e.dst_paper_id := by
  intro e he
  unfold buildGraph at he
  by_cases hempl : findSeeds adapter cfg = []
  · rw [if_pos hempl] at he
    exact absurd he (List.not_mem_nil e)
  · rw [if_neg hempl] at he
    have he2 : e ∈ (traverseCitations adapter
        (insertPapers emptyStore (findSeeds adapter cfg)).2
        (assignIds (findSeeds adapter cfg)
          (insertPapers emptyStore (findSeeds adapter cfg)).1) cfg).edges :=
      he
    rw [traverseCitations] at he2
    have hinv0 : StInv (insertPapers emptyStore (findSeeds adapter cfg)).2 :=
      insertPapers_StInv _ emptyStore
        ⟨fun r hr => absurd hr (List.not_mem_nil r), List.nodup_nil⟩
    have hedges0 : edgesOk (insertPapers emptyStore (findSeeds adapter cfg)).2 := by
      intro e2 he3
      rw [insertPapers_edges] at he3
      exact absurd he3 (List.not_mem_nil e2)
    have hfr0 : ∀ pp ∈ assignIds (findSeeds adapter cfg)
        (insertPapers emptyStore (findSeeds adapter cfg)).1,
        ∀ pid, pp.1 = some pid →
          rowFor (insertPapers emptyStore (findSeeds adapter cfg)).2
            pid pp.2 := by
      intro pp hppm pid hpid
      rw [assignIds] at hppm
      rcases List.mem_map.mp hppm with ⟨q, hq, hqe⟩
      subst hqe
      have : q.2 = pid := Option.some.inj hpid
      subst this
      exact insertPapers_rowFor _ emptyStore q hq
    exact (traverseLoop_edgesOk adapter cfg hrefs cfg.depth _
      ⟨_, _, []⟩ hinv0 hedges0 hfr0).2 e he2

/-- A second paper, the one cited by `selfRefPaper`. -/
def refPaperB : Paper :=
  ⟨"openalex", "B", none, none, "u", none, none, none, none, 0, none,
    none, none⟩

/-- An adapter where the seed paper A references only paper B. -/
def crossRefAdapter : SourceAdapter :=
  ⟨fun _ _ => [selfRefPaper], fun _ _ => [], fun _ => none,
   fun sid _ => if sid = "A" then [refPaperB] else []⟩

/-- Witness for C2 amended: the cross-reference adapter never lists a
reference under its own source id, and the build's edges all join distinct
papers. -/
theorem c2_no_self_citation_amended_witness :
    (∀ sid n, ∀ ref ∈ crossRefAdapter.fetchReferences sid n,
      ref.source_id ≠ sid) ∧
    ∀ e ∈ (buildGraph cfgSelfRef crossRefAdapter).1.edges,
      e.src_paper_id ≠ e.dst_paper_id := by
  have h : ∀ sid n, ∀ ref ∈ crossRefAdapter.fetchReferences sid n,
      ref.source_id ≠ sid := by
    intro sid n ref hm
    show ref.source_id ≠ sid
    by_cases hs : sid = "A"
    · subst hs
      simp [crossRefAdapter] at hm
      subst hm
      decide
    · simp only [crossRefAdapter, if_neg hs] at hm
      exact absurd hm (List.not_mem_nil ref)
  exact ⟨h, c2_no_self_citation_amended cfgSelfRef crossRefAdapter h⟩

end PaperGraph
